import Mathlib

/-!
Verification of the bropt Brainfuck optimizing compiler (src/brainfuck.rs,
src/lib.rs).  The tree IR, the parser, every optimization pass, the
flattener and the bytecode interpreter are embedded as executable Lean
functions, translated clause by clause from the Rust source.  Machine
integers are modelled as follows: u8 tape cells and u8 IR fields wrap
modulo 256 (explicit u8 below, matching the release-mode wrapping
semantics the specification prescribes); i32/i16 quantities are modelled
as unbounded Int (the passes only ever produce values bounded by the
program size, so i32 overflow is immaterial to the properties proved
here); usize data pointers wrap modulo 2^64.
-/

namespace Bropt

/-- Wrapping 8-bit arithmetic: reduce a natural number modulo 256. -/
def u8 (n : Nat) : Nat := n % 256

/-- Tree IR nodes, mirroring enum BaseInst in src/brainfuck.rs. -/
inductive BaseInst where
  | Inc (v : Nat)
  | Shift (n : Int)
  | Output
  | Input
  | Reset
  | Mul (off : Int) (w : Nat)
  | Seek (n : Int)
  | Skip (p : Int) (v : Nat) (d : Int)
  | Block (body : List BaseInst) (stable : Bool)

/-! ## Parser (fn parse, src/brainfuck.rs lines 41 to 86) -/

/-- Parser for one block level, mirroring parse_block in the source.  It
returns the parsed nodes, the running shift sum (the local variable delta
in the source), the conjunction of the stability flags of the nested
blocks (the local variable stability), and the unconsumed remainder of
the input stream.  The returned stability of the block itself is the
conjunction together with the test that the shift sum is zero, computed
at the two return sites exactly as in the source.  The remainder carries
a length bound so that the continuation call after a nested block is
well founded. -/
def parseB : (cs : List Char) → Bool →
    Except String (List BaseInst × Int × Bool × {r : List Char // r.length ≤ cs.length})
  | [], true => .error "Unmatched ["
  | [], false => .ok ([], 0, true, ⟨[], Nat.le_refl 0⟩)
  | c :: cs, inBlock =>
    if c = '[' then
      match parseB cs true with
      | .error e => .error e
      | .ok (b, d₁, s₁, ⟨r₁, h₁⟩) =>
        let bs := s₁ && decide (d₁ = 0)
        match parseB r₁ inBlock with
        | .error e => .error e
        | .ok (p, d, s, ⟨r, h⟩) =>
          .ok (.Block b bs :: p, d, s && bs,
               ⟨r, by simp only [List.length_cons]; omega⟩)
    else if c = ']' then
      if inBlock then
        .ok ([], 0, true, ⟨cs, by simp only [List.length_cons]; omega⟩)
      else
        .error "Unmatched ]"
    else
      match parseB cs inBlock with
      | .error e => .error e
      | .ok (p, d, s, ⟨r, h⟩) =>
        let r' : {r : List Char // r.length ≤ (c :: cs).length} :=
          ⟨r, by simp only [List.length_cons]; omega⟩
        if c = '+' then .ok (.Inc 1 :: p, d, s, r')
        else if c = '-' then .ok (.Inc 255 :: p, d, s, r')
        else if c = '>' then .ok (.Shift 1 :: p, d + 1, s, r')
        else if c = '<' then .ok (.Shift (-1) :: p, d - 1, s, r')
        else if c = '.' then .ok (.Output :: p, d, s, r')
        else if c = ',' then .ok (.Input :: p, d, s, r')
        else .ok (p, d, s, r')
termination_by cs _ => cs.length
decreasing_by
  all_goals simp only [List.length_cons]
  all_goals omega

/-- Wrapper mirroring fn parse.  The source unwraps the inner result and
panics on a malformed program; the panic is surfaced to callers (the
compile binding in src/lib.rs catches the unwind and reports the message),
so the error is propagated here. -/
def parse (cs : List Char) : Except String (List BaseInst) :=
  match parseB cs false with
  | .error e => .error e
  | .ok (block, _, _, _) => .ok block

/-! ## Compress (fn compress, src/brainfuck.rs lines 88 to 121) -/

/-- Accumulate a maximal run of Inc nodes, wrapping the sum at 8 bits at
each step, mirroring the inner while-peek loop of compress_block. -/
def collectInc : Nat → List BaseInst → Nat × List BaseInst
  | v, .Inc w :: rest => collectInc (u8 (v + w)) rest
  | v, rest => (v, rest)

/-- Accumulate a maximal run of Shift nodes, mirroring the inner
while-peek loop of compress_block. -/
def collectShift : Int → List BaseInst → Int × List BaseInst
  | n, .Shift m :: rest => collectShift (n + m) rest
  | n, rest => (n, rest)

theorem collectInc_sizeOf (v : Nat) (l : List BaseInst) :
    sizeOf (collectInc v l).2 ≤ sizeOf l := by
  induction l generalizing v with
  | nil => simp [collectInc]
  | cons x rest ih =>
    cases x <;> simp [collectInc] <;> first | omega | exact le_trans (ih _) (by omega)

theorem collectShift_sizeOf (n : Int) (l : List BaseInst) :
    sizeOf (collectShift n l).2 ≤ sizeOf l := by
  induction l generalizing n with
  | nil => simp [collectShift]
  | cons x rest ih =>
    cases x <;> simp [collectShift] <;> first | omega | exact le_trans (ih _) (by omega)

/-- One left-to-right scan of compress_block: a run of Inc nodes fuses to
its wrapping sum (dropped when zero), a run of Shift nodes fuses to its
sum (dropped when zero), blocks are compressed recursively, all other
nodes pass through. -/
def compressBlock : List BaseInst → List BaseInst
  | [] => []
  | .Inc v :: rest =>
    let p := collectInc v rest
    if p.1 ≠ 0 then .Inc p.1 :: compressBlock p.2 else compressBlock p.2
  | .Shift n :: rest =>
    let p := collectShift n rest
    if p.1 ≠ 0 then .Shift p.1 :: compressBlock p.2 else compressBlock p.2
  | .Block b s :: rest => .Block (compressBlock b) s :: compressBlock rest
  | i :: rest => i :: compressBlock rest
termination_by l => sizeOf l
decreasing_by
  all_goals first
    | (have h := collectInc_sizeOf v rest; simp at *; omega)
    | (have h := collectShift_sizeOf n rest; simp at *; omega)
    | (simp at *; omega)
    | (simp at *)

/-- Mirror of fn compress. -/
def compress (prog : List BaseInst) : List BaseInst := compressBlock prog

/-! ## Fold simple loops (fn fold_simple_loops, lines 123 to 151) -/

/-- Mirror of fn fold_simple_loops.  A block whose recursively folded body
is a single Inc with value coprime to 256 becomes Reset; a single Shift
becomes Seek; anything else is left as a block. -/
def fold_simple_loops : List BaseInst → List BaseInst
  | [] => []
  | .Block b s :: rest =>
    (match fold_simple_loops b with
     | [.Inc x] => if Nat.gcd x 256 = 1 then .Reset else .Block [.Inc x] s
     | [.Shift n] => .Seek n
     | inner => .Block inner s) :: fold_simple_loops rest
  | i :: rest => i :: fold_simple_loops rest

/-! ## Fold skip loops (fn fold_skip_loops, lines 153 to 191) -/

/-- Scan of a folded block body mirroring the for-loop of fold_skip_loops:
the accumulator carries the running pointer (ptr in the source) and the
optional recorded increment (inc_detected, inc_amount, inc_offset); a
second Inc or any other node makes the scan invalid (none). -/
def skipScan : List BaseInst → Int → Option (Nat × Int) → Option (Int × Option (Nat × Int))
  | [], ptr, det => some (ptr, det)
  | .Shift off :: rest, ptr, det => skipScan rest (ptr + off) det
  | .Inc n :: rest, ptr, none => skipScan rest ptr (some (n, ptr))
  | _, _, _ => none

/-- Mirror of fn fold_skip_loops.  Note the source tests the offset with
the half-open range i16::MIN..i16::MAX, so 32767 is excluded, and it
requires inc_detected, so a body with no Inc at all is not rewritten. -/
def fold_skip_loops : List BaseInst → List BaseInst
  | [] => []
  | .Block b flag :: rest =>
    let inner := fold_skip_loops b
    (match skipScan inner 0 none with
     | some (ptr, some (amt, off)) =>
       if -32768 ≤ off ∧ off < 32767 then .Skip ptr amt off else .Block inner flag
     | _ => .Block inner flag) :: fold_skip_loops rest
  | i :: rest => i :: fold_skip_loops rest

/-! ## Fold mul loops (fn fold_mul_loops, lines 193 to 235) -/

/-- Association list sorted by key in strictly ascending order, modelling
the BTreeMap of fold_mul_loops.  Adding v at key k creates the entry with
or_insert(0) semantics and then adds with 8-bit wrapping. -/
def mapAddU8 : List (Int × Nat) → Int → Nat → List (Int × Nat)
  | [], k, v => [(k, u8 v)]
  | (k', v') :: rest, k, v =>
    if k < k' then (k, u8 v) :: (k', v') :: rest
    else if k = k' then (k', u8 (v' + v)) :: rest
    else (k', v') :: mapAddU8 rest k v

/-- Lookup in the sorted association list (BTreeMap::get). -/
def mapGet : List (Int × Nat) → Int → Option Nat
  | [], _ => none
  | (k', v') :: rest, k => if k = k' then some v' else mapGet rest k

/-- Symbolic walk of a pure Inc/Shift body, mirroring the for-loop of
fold_mul_loops: each Inc adds its value (mod 256) at the current pointer
offset, each Shift moves the pointer.  Other nodes are unreachable in the
source under the all-Inc/Shift eligibility guard and are skipped here. -/
def mulChanges : List BaseInst → Int → List (Int × Nat) → List (Int × Nat)
  | [], _, m => m
  | .Inc v :: rest, ptr, m => mulChanges rest ptr (mapAddU8 m ptr v)
  | .Shift n :: rest, ptr, m => mulChanges rest (ptr + n) m
  | _ :: rest, ptr, m => mulChanges rest ptr m

/-- Test used by the eligibility guard of fold_mul_loops. -/
def isIncShift : BaseInst → Bool
  | .Inc _ => true
  | .Shift _ => true
  | _ => false

/-- Mirror of fn fold_mul_loops.  A stable block whose folded body is all
Inc/Shift and whose symbolic entry-cell change is 255 becomes the sorted
Mul sequence (nonzero offsets with nonzero weights) followed by Reset. -/
def fold_mul_loops : List BaseInst → List BaseInst
  | [] => []
  | .Block b stable :: rest =>
    let inner := fold_mul_loops b
    if stable && inner.all isIncShift then
      let m := mulChanges inner 0 [(0, 0)]
      if mapGet m 0 = some 255 then
        (m.filter (fun e => e.1 != 0 && e.2 != 0)).map (fun e => .Mul e.1 e.2)
          ++ (.Reset :: fold_mul_loops rest)
      else .Block inner stable :: fold_mul_loops rest
    else .Block inner stable :: fold_mul_loops rest
  | i :: rest => i :: fold_mul_loops rest

/-! ## Remove dead writes (fn remove_dead_writes, lines 237 to 303) -/

/-- Insert into the HashSet model (a list of distinct offsets). -/
def insertI (x : Int) (s : List Int) : List Int := if x ∈ s then s else x :: s

/-- Remove from the HashSet model. -/
def removeI (x : Int) (s : List Int) : List Int := s.filter (fun y => y != x)

mutual
/-- Backward elimination walk of remove_block in the stable case.  The
source iterates the body in reverse, maintaining the target set and the
reverse pointer, pushing kept nodes and reversing at the end; here the
same walk is expressed by structural recursion from the right: the
recursive call processes the suffix (walked first by the source) and
returns the kept suffix in forward order together with the walk state
(targets, ptr) at the boundary, and the head node is then processed
against that state. -/
def rdBack : List BaseInst → List BaseInst × List Int × Int
  | [] => ([], [], 0)
  | inst :: rest =>
    let s := rdBack rest
    let acc := s.1
    let targets := s.2.1
    let ptr := s.2.2
    match inst with
    | .Shift off => (.Shift off :: acc, targets, ptr - off)
    | .Reset =>
      if ptr ∈ targets then (acc, targets, ptr)
      else (.Reset :: acc, insertI ptr targets, ptr)
    | .Input => (.Input :: acc, insertI ptr targets, ptr)
    | .Output => (.Output :: acc, removeI ptr targets, ptr)
    | .Mul off w =>
      let targets' := removeI ptr targets
      if (ptr + off) ∈ targets' then (acc, targets', ptr)
      else (.Mul off w :: acc, targets', ptr)
    | .Inc n =>
      if ptr ∈ targets then (acc, targets, ptr)
      else (.Inc n :: acc, targets, ptr)
    | .Seek off => (.Seek off :: acc, [], ptr)
    | .Skip a v d => (.Skip a v d :: acc, [], ptr)
    | .Block b f => (.Block (removeBlock b f) f :: acc, [], ptr)
termination_by l => (sizeOf l, 0)

/-- Mirror of remove_block: an unstable body only recurses into nested
blocks (the source maps over the nodes); a stable body runs the backward
elimination walk. -/
def removeBlock : List BaseInst → Bool → List BaseInst
  | prog, true => (rdBack prog).1
  | [], false => []
  | .Block b f :: rest, false => .Block (removeBlock b f) f :: removeBlock rest false
  | i :: rest, false => i :: removeBlock rest false
termination_by l _ => (sizeOf l, 1)
end

/-- Mirror of fn remove_dead_writes: the top level is processed with
stable set to false. -/
def remove_dead_writes (prog : List BaseInst) : List BaseInst :=
  removeBlock prog false

/-! ## Move repeating resets (fn move_repeating_resets, lines 305 to 387) -/

/-- Test for a Block node, used by the eligibility guard of
move_repeating_resets. -/
def isBlockNode : BaseInst → Bool
  | .Block _ _ => true
  | _ => false

/-- Forward scan of an eligible block body collecting the unremovable
offsets: cells emitted by Output and cells read by Mul. -/
def mvUnremovable : List BaseInst → Int → List Int → List Int
  | [], _, s => s
  | .Shift off :: rest, ptr, s => mvUnremovable rest (ptr + off) s
  | .Output :: rest, ptr, s => mvUnremovable rest ptr (insertI ptr s)
  | .Mul _ _ :: rest, ptr, s => mvUnremovable rest ptr (insertI ptr s)
  | _ :: rest, ptr, s => mvUnremovable rest ptr s

/-- Backward walk of move_repeating_resets over an eligible (block-free)
body, structurally recursive from the right like rdBack.  It returns the
kept body in forward order, the removed reset offsets in the order the
reverse walk encountered them (latest in the body first, matching the
push order of the source), the final unremovable set and the final
pointer.  The initial unremovable set (from the forward scan) seeds the
base case.  A Seek, Skip or Block hits an unreachable! panic in the
source; that case is none here. -/
def mvBack (u₀ : List Int) : List BaseInst → Option (List BaseInst × List Int × List Int × Int)
  | [] => some ([], [], u₀, 0)
  | inst :: rest =>
    match mvBack u₀ rest with
    | none => none
    | some (seq, removed, u, ptr) =>
      match inst with
      | .Shift off => some (.Shift off :: seq, removed, u, ptr - off)
      | .Reset =>
        if ptr ∈ u then some (.Reset :: seq, removed, u, ptr)
        else some (seq, removed ++ [ptr], u, ptr)
      | .Inc v => some (.Inc v :: seq, removed, insertI ptr u, ptr)
      | .Mul off w => some (.Mul off w :: seq, removed, insertI (ptr + off) u, ptr)
      | .Output => some (.Output :: seq, removed, u, ptr)
      | .Input => some (.Input :: seq, removed, u, ptr)
      | _ => none

/-- Mirror of fn move_repeating_resets.  A stable block with no nested
blocks has its removable trailing resets hoisted to after the loop inside
a new stable wrapper block.  When the backward walk meets a Seek or Skip
the source panics with unreachable!; such bodies are returned unchanged
here (no claim exercises that case). -/
def move_repeating_resets : List BaseInst → List BaseInst
  | [] => []
  | .Block b flag :: rest =>
    let moved := move_repeating_resets b
    (if flag && moved.all (fun i => !isBlockNode i) then
      match mvBack (mvUnremovable moved 0 (insertI 0 [])) moved with
      | none => .Block moved flag
      | some (seq, removed, _, _) =>
        if removed.isEmpty then .Block seq flag
        else .Block (.Block seq flag ::
               (removed.map (fun off => [.Shift off, .Reset, .Shift (-off)])).flatten) true
     else .Block moved flag) :: move_repeating_resets rest
  | i :: rest => i :: move_repeating_resets rest

/-! ## Flat IR (enum InstType and struct Inst, lines 6 to 26) -/

/-- Flat instruction opcodes, mirroring enum InstType. -/
inductive InstType where
  | ShiftInc
  | Output
  | Input
  | Seek
  | Skip
  | Set
  | Mulzero
  | Mul
  | Open
  | Close
deriving DecidableEq

/-- Flat instruction record, mirroring struct Inst: opcode, fused 8-bit
post-increment, fused 16-bit post-shift, and the opcode-dependent
argument (shift amount, multiply offset, seek stride or jump target). -/
structure Inst where
  cmd : InstType
  inc : Nat
  delta : Int
  arg : Int
deriving DecidableEq

/-! ## Flattener (fn flatten, lines 389 to 576) -/

/-- Mirror of pick_inc: consume a leading Inc node and return its value,
or 0 without consuming. -/
def pickInc : List BaseInst → Nat × List BaseInst
  | .Inc v :: rest => (v, rest)
  | l => (0, l)

/-- Mirror of pick_shift: consume a leading Shift node if its value fits
a signed 16-bit integer and return it, or 0 without consuming. -/
def pickShift : List BaseInst → Int × List BaseInst
  | .Shift d :: rest =>
    if -32768 ≤ d ∧ d ≤ 32767 then (d, rest) else (0, .Shift d :: rest)
  | l => (0, l)

theorem pickInc_sizeOf (l : List BaseInst) : sizeOf (pickInc l).2 ≤ sizeOf l := by
  match l with
  | .Inc v :: rest => simp [pickInc]
  | [] => simp [pickInc]
  | .Shift n :: rest => simp [pickInc]
  | .Output :: rest => simp [pickInc]
  | .Input :: rest => simp [pickInc]
  | .Reset :: rest => simp [pickInc]
  | .Mul o w :: rest => simp [pickInc]
  | .Seek n :: rest => simp [pickInc]
  | .Skip a v d :: rest => simp [pickInc]
  | .Block b f :: rest => simp [pickInc]

theorem pickShift_sizeOf (l : List BaseInst) : sizeOf (pickShift l).2 ≤ sizeOf l := by
  match l with
  | .Shift d :: rest =>
    simp only [pickShift]
    split
    · simp
    · simp
  | [] => simp [pickShift]
  | .Inc v :: rest => simp [pickShift]
  | .Output :: rest => simp [pickShift]
  | .Input :: rest => simp [pickShift]
  | .Reset :: rest => simp [pickShift]
  | .Mul o w :: rest => simp [pickShift]
  | .Seek n :: rest => simp [pickShift]
  | .Skip a v d :: rest => simp [pickShift]
  | .Block b f :: rest => simp [pickShift]

/-- Mirror of flatten_block.  Each primitive fuses trailing Inc and Shift
nodes into its inc and delta fields per the source; a Shift merges with a
following Reset, Output or Input into a Set, Output or Input instruction
with a prelude shift; a Mul followed by Reset becomes Mulzero; a block
consumes a leading Inc and Shift into its Open (and matching Close)
instruction. -/
def flattenBlock : List BaseInst → List Inst
  | [] => []
  | .Inc v :: rest =>
    let p := pickShift rest
    ⟨.ShiftInc, v, p.1, 0⟩ :: flattenBlock p.2
  | .Shift a :: .Reset :: r₁ =>
    let pi := pickInc r₁
    let ps := pickShift pi.2
    ⟨.Set, pi.1, ps.1, a⟩ :: flattenBlock ps.2
  | .Shift a :: .Output :: r₁ =>
    let pi := pickInc r₁
    let ps := pickShift pi.2
    ⟨.Output, pi.1, ps.1, a⟩ :: flattenBlock ps.2
  | .Shift a :: .Input :: r₁ =>
    let pi := pickInc r₁
    let ps := pickShift pi.2
    ⟨.Input, pi.1, ps.1, a⟩ :: flattenBlock ps.2
  | .Shift a :: rest =>
    let pi := pickInc rest
    let ps := pickShift pi.2
    ⟨.ShiftInc, pi.1, ps.1, a⟩ :: flattenBlock ps.2
  | .Output :: rest =>
    let pi := pickInc rest
    let ps := pickShift pi.2
    ⟨.Output, pi.1, ps.1, 0⟩ :: flattenBlock ps.2
  | .Input :: rest =>
    let pi := pickInc rest
    let ps := pickShift pi.2
    ⟨.Input, pi.1, ps.1, 0⟩ :: flattenBlock ps.2
  | .Reset :: rest =>
    let pi := pickInc rest
    let ps := pickShift pi.2
    ⟨.Set, pi.1, ps.1, 0⟩ :: flattenBlock ps.2
  | .Mul off w :: .Reset :: r₁ =>
    let ps := pickShift r₁
    ⟨.Mulzero, w, ps.1, off⟩ :: flattenBlock ps.2
  | .Mul off w :: rest =>
    ⟨.Mul, w, 0, off⟩ :: flattenBlock rest
  | .Seek off :: rest =>
    let ps := pickShift rest
    let pi := pickInc ps.2
    ⟨.Seek, pi.1, ps.1, off⟩ :: flattenBlock pi.2
  | .Skip p v d :: rest =>
    ⟨.Skip, v, d, p⟩ :: flattenBlock rest
  | .Block b _ :: rest =>
    let pi := pickInc b
    let ps := pickShift pi.2
    ⟨.Open, pi.1, ps.1, 0⟩ ::
      (flattenBlock ps.2 ++ ⟨.Close, pi.1, ps.1, 0⟩ :: flattenBlock rest)
termination_by l => sizeOf l
decreasing_by
  all_goals
    first
      | (have h1 := pickInc_sizeOf rest
         have h2 := pickShift_sizeOf (pickInc rest).2
         simp at *; omega)
      | (have h1 := pickInc_sizeOf r₁
         have h2 := pickShift_sizeOf (pickInc r₁).2
         simp at *; omega)
      | (have h1 := pickShift_sizeOf rest
         have h2 := pickInc_sizeOf (pickShift rest).2
         simp at *; omega)
      | (have h1 := pickShift_sizeOf r₁
         simp at *; omega)
      | (have h1 := pickInc_sizeOf b
         have h2 := pickShift_sizeOf (pickInc b).2
         simp at *; omega)
      | (simp at *; omega)
      | (simp at *)

/-- One step of the jump-linking scan at index idx: an Open pushes its
index; a Close pops the matching Open and writes the two arg fields.  The
source unwraps the pop and panics on an empty stack; that case leaves the
program unchanged here (flattenBlock never produces it, as proved below). -/
def linkStep : List Inst × List Nat → Nat → List Inst × List Nat
  | (cur, stack), idx =>
    match cur[idx]? with
    | none => (cur, stack)
    | some inst =>
      match inst.cmd with
      | .Open => (cur, idx :: stack)
      | .Close =>
        match stack with
        | [] => (cur, stack)
        | o :: st =>
          ((cur.modify (fun x => { x with arg := (idx : Int) }) o).modify
             (fun x => { x with arg := (o : Int) }) idx, st)
      | _ => (cur, stack)

/-- Mirror of fn flatten: flatten the tree, then link every Open with its
Close by a single scan over the instruction indices. -/
def flatten (prog : List BaseInst) : List Inst :=
  let flat := flattenBlock prog
  (List.foldl linkStep (flat, []) (List.range flat.length)).1

/-! ## Compile driver (fn compile, lines 825 to 844) -/

/-- Mirror of fn compile in src/brainfuck.rs: the exact pass sequence of
the source, applied to the parse tree.  The source unwraps the parse
result (panicking on a bracket error, which src/lib.rs converts into an
error value); here the error propagates through Except. -/
def compile (cs : List Char) : Except String (List Inst) :=
  match parse cs with
  | .error e => .error e
  | .ok prog₀ =>
    let prog := compress prog₀
    let prog := fold_simple_loops prog
    let prog := fold_mul_loops prog
    let prog := remove_dead_writes prog
    let prog := remove_dead_writes prog
    let prog := move_repeating_resets prog
    let prog := compress prog
    let prog := fold_simple_loops prog
    let prog := fold_mul_loops prog
    let prog := remove_dead_writes prog
    let prog := remove_dead_writes prog
    let prog := move_repeating_resets prog
    let prog := compress prog
    let prog := fold_simple_loops prog
    let prog := fold_mul_loops prog
    let prog := fold_skip_loops prog
    .ok (flatten prog)

/-! ## Interpreter (fn run_with_state, lines 663 to 742) -/

/-- Interpreter state: tape bytes, data pointer (usize), instruction
pointer, captured output, and remaining input bytes. -/
structure MState where
  data : List Nat
  dp : Nat
  ip : Nat
  output : List Nat
  inputRest : List Nat
deriving DecidableEq

/-- Pointer arithmetic dp + a on a usize, wrapping modulo 2^64 exactly as
the cast chain (dp as isize + a as isize) as usize does. -/
def wrapIdx (dp : Nat) (a : Int) : Nat := (((dp : Int) + a) % (2 ^ 64)).toNat

/-- Tape read; none models the bounds-check panic of data[dp]. -/
def tapeGet (data : List Nat) (dp : Nat) : Option Nat := data[dp]?

/-- Tape write; none models the bounds-check panic of data[dp]. -/
def tapeSet (data : List Nat) (dp : Nat) (v : Nat) : Option (List Nat) :=
  if dp < data.length then some (data.set dp v) else none

/-- Inner while-loop of the Seek opcode, fueled; returns the final dp. -/
def seekRun : Nat → List Nat → Nat → Int → Option Nat
  | 0, _, _, _ => none
  | fuel + 1, data, dp, arg =>
    match tapeGet data dp with
    | none => none
    | some v => if v = 0 then some dp else seekRun fuel data (wrapIdx dp arg) arg

/-- Inner while-loop of the Skip opcode, fueled; returns tape and dp. -/
def skipRun : Nat → List Nat → Nat → Int → Nat → Int → Option (List Nat × Nat)
  | 0, _, _, _, _, _ => none
  | fuel + 1, data, dp, arg, inc, delta =>
    match tapeGet data dp with
    | none => none
    | some v =>
      if v = 0 then some (data, dp)
      else
        let pos := wrapIdx dp delta
        match tapeGet data pos with
        | none => none
        | some w =>
          match tapeSet data pos (u8 (w + inc)) with
          | none => none
          | some data' => skipRun fuel data' (wrapIdx dp arg) arg inc delta

/-- One iteration of the dispatch loop of run_with_state, executed when
ip is in range.  Cell arithmetic wraps at 8 bits; a tape access out of
bounds is none (the source panics there).  The fuel argument bounds only
the inner while-loops of Seek and Skip. -/
def step (fuel : Nat) (prog : List Inst) (s : MState) : Option MState :=
  match prog[s.ip]? with
  | none => none
  | some inst =>
    match inst.cmd with
    | .ShiftInc =>
      let dp₁ := wrapIdx s.dp inst.arg
      match tapeGet s.data dp₁ with
      | none => none
      | some v =>
        match tapeSet s.data dp₁ (u8 (v + inst.inc)) with
        | none => none
        | some data' =>
          some { s with data := data', dp := wrapIdx dp₁ inst.delta, ip := s.ip + 1 }
    | .Output =>
      let dp₁ := wrapIdx s.dp inst.arg
      match tapeGet s.data dp₁ with
      | none => none
      | some v =>
        match tapeSet s.data dp₁ (u8 (v + inst.inc)) with
        | none => none
        | some data' =>
          some { s with data := data', dp := wrapIdx dp₁ inst.delta, ip := s.ip + 1,
                        output := s.output ++ [v] }
    | .Input =>
      let dp₁ := wrapIdx s.dp inst.arg
      let read := match s.inputRest with
        | b :: bs => (b, bs)
        | [] => (0, ([] : List Nat))
      match tapeSet s.data dp₁ (u8 (read.1 + inst.inc)) with
      | none => none
      | some data' =>
        some { s with data := data', dp := wrapIdx dp₁ inst.delta, ip := s.ip + 1,
                      inputRest := read.2 }
    | .Seek =>
      match seekRun fuel s.data s.dp inst.arg with
      | none => none
      | some dp₁ =>
        let dp₂ := wrapIdx dp₁ inst.delta
        match tapeGet s.data dp₂ with
        | none => none
        | some v =>
          match tapeSet s.data dp₂ (u8 (v + inst.inc)) with
          | none => none
          | some data' => some { s with data := data', dp := dp₂, ip := s.ip + 1 }
    | .Skip =>
      match skipRun fuel s.data s.dp inst.arg inst.inc inst.delta with
      | none => none
      | some (data', dp') => some { s with data := data', dp := dp', ip := s.ip + 1 }
    | .Set =>
      let dp₁ := wrapIdx s.dp inst.arg
      match tapeSet s.data dp₁ (u8 inst.inc) with
      | none => none
      | some data' =>
        some { s with data := data', dp := wrapIdx dp₁ inst.delta, ip := s.ip + 1 }
    | .Mul =>
      match tapeGet s.data s.dp with
      | none => none
      | some v =>
        if v = 0 then some { s with ip := s.ip + 1 }
        else
          let pos := wrapIdx s.dp inst.arg
          match tapeGet s.data pos with
          | none => none
          | some w =>
            match tapeSet s.data pos (u8 (w + v * inst.inc)) with
            | none => none
            | some data' => some { s with data := data', ip := s.ip + 1 }
    | .Mulzero =>
      match tapeGet s.data s.dp with
      | none => none
      | some v =>
        if v = 0 then some { s with dp := wrapIdx s.dp inst.delta, ip := s.ip + 1 }
        else
          let pos := wrapIdx s.dp inst.arg
          match tapeGet s.data pos with
          | none => none
          | some w =>
            match tapeSet s.data pos (u8 (w + v * inst.inc)) with
            | none => none
            | some data'' =>
              match tapeSet data'' s.dp 0 with
              | none => none
              | some data' =>
                some { s with data := data', dp := wrapIdx s.dp inst.delta, ip := s.ip + 1 }
    | .Open =>
      match tapeGet s.data s.dp with
      | none => none
      | some v =>
        if v = 0 then some { s with ip := ((inst.arg % (2 ^ 64)).toNat) + 1 }
        else
          match tapeSet s.data s.dp (u8 (v + inst.inc)) with
          | none => none
          | some data' =>
            some { s with data := data', dp := wrapIdx s.dp inst.delta, ip := s.ip + 1 }
    | .Close =>
      match tapeGet s.data s.dp with
      | none => none
      | some v =>
        if v ≠ 0 then
          match tapeSet s.data s.dp (u8 (v + inst.inc)) with
          | none => none
          | some data' =>
            some { s with data := data', dp := wrapIdx s.dp inst.delta,
                          ip := ((inst.arg % (2 ^ 64)).toNat) + 1 }
        else some { s with ip := s.ip + 1 }

/-- Fueled dispatch loop of run_with_state: iterate step while ip is in
range; returns (output, tape, dp) like the source. -/
def runLoop : Nat → List Inst → MState → Option (List Nat × List Nat × Nat)
  | 0, _, _ => none
  | fuel + 1, prog, s =>
    if s.ip < prog.length then
      match step fuel prog s with
      | none => none
      | some s' => runLoop fuel prog s'
    else some (s.output, s.data, s.dp)

/-- Mirror of fn run_with_state: zero tape of the given length, dp and ip
zero, the given input buffer; fueled to model nontermination. -/
def run_with_state (fuel : Nat) (prog : List Inst) (length : Nat) (input : List Nat) :
    Option (List Nat × List Nat × Nat) :=
  runLoop fuel prog ⟨List.replicate length 0, 0, 0, [], input⟩

/-! ## Derived pipeline groupings used by the claims about fn compile -/

/-- One round of the repeated optimization sequence inside fn compile:
compress, fold_simple_loops, fold_mul_loops, remove_dead_writes twice,
move_repeating_resets. -/
def passRound (p : List BaseInst) : List BaseInst :=
  move_repeating_resets (remove_dead_writes (remove_dead_writes
    (fold_mul_loops (fold_simple_loops (compress p)))))

/-- The closing passes of fn compile: compress, fold_simple_loops,
fold_mul_loops, fold_skip_loops, flatten. -/
def finishPasses (p : List BaseInst) : List Inst :=
  flatten (fold_skip_loops (fold_mul_loops (fold_simple_loops (compress p))))

/-- Modelled from the spec: the pipeline that claim C5 and section 4.2.7
of the specification describe, with three rounds of the repeated sequence
before the closing passes.  The source function compile performs only two
such rounds; this definition exists to be compared with compile. -/
def compileClaimed (cs : List Char) : Except String (List Inst) :=
  match parse cs with
  | .error e => .error e
  | .ok p => .ok (finishPasses (passRound (passRound (passRound p))))

/-! ## Specification-side definitions for the individual claims -/

/-- Bracket scan with an open-bracket depth counter: the success and the
error message of the parser depend only on this scan of the source text. -/
def scanCs : List Char → Nat → Except String Unit
  | [], d => if d = 0 then .ok () else .error "Unmatched ["
  | c :: cs, d =>
    if c = '[' then scanCs cs (d + 1)
    else if c = ']' then
      match d with
      | 0 => .error "Unmatched ]"
      | d + 1 => scanCs cs d
    else scanCs cs d

/-- Concatenation of k copies of the two-character string of an opening
and a closing bracket. -/
def repBrackets : Nat → List Char
  | 0 => []
  | k + 1 => '[' :: ']' :: repBrackets k

/-- Sum of the values of the immediate Shift nodes of a body. -/
def shiftSumB : List BaseInst → Int
  | [] => 0
  | .Shift n :: rest => n + shiftSumB rest
  | _ :: rest => shiftSumB rest

/-- Conjunction of the stored stability flags of the immediate nested
blocks of a body. -/
def nestedFlags : List BaseInst → Bool
  | [] => true
  | .Block _ f :: rest => f && nestedFlags rest
  | _ :: rest => nestedFlags rest

/-- Every block node of the tree, at every depth, stores exactly the flag
claim C8 describes: true iff its immediate shift values sum to zero and
all its immediate nested blocks carry a true flag. -/
def flagsOk : List BaseInst → Bool
  | [] => true
  | .Block b f :: rest =>
    (f == (nestedFlags b && decide (shiftSumB b = 0))) && flagsOk b && flagsOk rest
  | _ :: rest => flagsOk rest

/-- Test for a Shift node. -/
def isShiftNode : BaseInst → Bool
  | .Shift _ => true
  | _ => false

/-- Head-of-list tests used to state when a compressed body has no
remaining fusible adjacency. -/
def headIsInc : List BaseInst → Bool
  | .Inc _ :: _ => true
  | _ => false

def headIsShift : List BaseInst → Bool
  | .Shift _ :: _ => true
  | _ => false

/-- A body is in compressed form when no Inc or Shift is zero, no two
adjacent nodes are both Inc or both Shift, and every nested block body is
in compressed form. -/
def compressedForm : List BaseInst → Bool
  | [] => true
  | .Inc v :: rest => decide (v ≠ 0) && !headIsInc rest && compressedForm rest
  | .Shift n :: rest => decide (n ≠ 0) && !headIsShift rest && compressedForm rest
  | .Block b _ :: rest => compressedForm b && compressedForm rest
  | _ :: rest => compressedForm rest

/-- Action of remove_dead_writes on a single top-level node. -/
def rdTop : BaseInst → BaseInst
  | .Block b f => .Block (removeBlock b f) f
  | other => other

/-! ## Reference semantics of tree IR nodes (spec section 3.1)

The following evaluators give the meaning the specification table in
section 3.1 assigns to the nodes involved in claim C3, over an unbounded
integer-indexed tape of wrapping bytes. -/

/-- Pointwise tape update. -/
def updT (t : Int → Nat) (i : Int) (v : Nat) : Int → Nat :=
  fun j => if j = i then v else t j

/-- Run a straight-line body of Inc and Shift nodes once: Inc adds to the
current cell modulo 256, Shift moves the pointer.  Nodes of other kinds
cannot occur in the bodies claim C3 ranges over and are skipped. -/
def applyIS : List BaseInst → (Int → Nat) → Int → ((Int → Nat) × Int)
  | [], t, dp => (t, dp)
  | .Inc v :: rest, t, dp => applyIS rest (updT t dp (u8 (t dp + v))) dp
  | .Shift n :: rest, t, dp => applyIS rest t (dp + n)
  | _ :: rest, t, dp => applyIS rest t dp

/-- Loop semantics of a block: while the current cell is nonzero, run the
body.  Fueled; none means the fuel did not suffice. -/
def loopExec (body : List BaseInst) : Nat → (Int → Nat) → Int → Option ((Int → Nat) × Int)
  | 0, t, dp => if t dp = 0 then some (t, dp) else none
  | fuel + 1, t, dp =>
    if t dp = 0 then some (t, dp)
    else loopExec body fuel (applyIS body t dp).1 (applyIS body t dp).2

/-- Semantics of the folded replacement sequence: Mul adds the weighted
current cell into the target when the current cell is nonzero, Reset
clears the current cell.  Other nodes do not occur in the sequences claim
C3 ranges over and are skipped. -/
def execMulReset : List BaseInst → (Int → Nat) → Int → ((Int → Nat) × Int)
  | [], t, dp => (t, dp)
  | .Mul off w :: rest, t, dp =>
    execMulReset rest
      (if t dp ≠ 0 then updT t (dp + off) (u8 (t (dp + off) + t dp * w)) else t) dp
  | .Reset :: rest, t, dp => execMulReset rest (updT t dp 0) dp
  | _ :: rest, t, dp => execMulReset rest t dp

/-- Total increment a body applies at pointer offset o when walked from
pointer position p, before any modular reduction. -/
def rawChange : List BaseInst → Int → Int → Nat
  | [], _, _ => 0
  | .Inc v :: rest, p, o => (if p = o then v else 0) + rawChange rest p o
  | .Shift n :: rest, p, o => rawChange rest (p + n) o
  | _ :: rest, p, o => rawChange rest p o

/-- Does the walk of the body from pointer position p place an Inc at
offset o?  This tracks key creation in the BTreeMap of fold_mul_loops. -/
def hasIncAt : List BaseInst → Int → Int → Bool
  | [], _, _ => false
  | .Inc _ :: rest, p, o => p == o || hasIncAt rest p o
  | .Shift n :: rest, p, o => hasIncAt rest (p + n) o
  | _ :: rest, p, o => hasIncAt rest p o

/-! ## Bracket structure of flat programs (claim C9) -/

/-- Balanced Open/Close skeletons of a flat opcode sequence. -/
inductive Dyck : List InstType → Prop
  | nil : Dyck []
  | other {c : InstType} {s : List InstType} :
      c ≠ .Open → c ≠ .Close → Dyck s → Dyck (c :: s)
  | pair {s₁ s₂ : List InstType} :
      Dyck s₁ → Dyck s₂ → Dyck (.Open :: s₁ ++ .Close :: s₂)

/-- Every Open and every Close in the index window from lo (inclusive) to
hi (exclusive) carries the index of a matching partner inside the window
that points back at it. -/
def PairedIn (cur : List Inst) (lo hi : Nat) : Prop :=
  ∀ i inst, lo ≤ i → i < hi → cur[i]? = some inst →
    (inst.cmd = .Open → ∃ j instJ, i < j ∧ j < hi ∧ inst.arg = (j : Int) ∧
      cur[j]? = some instJ ∧ instJ.cmd = .Close ∧ instJ.arg = (i : Int)) ∧
    (inst.cmd = .Close → ∃ j instJ, lo ≤ j ∧ j < i ∧ inst.arg = (j : Int) ∧
      cur[j]? = some instJ ∧ instJ.cmd = .Open ∧ instJ.arg = (i : Int))

/-! # Claim C10: remove_dead_writes treats the top level as unstable -/

theorem removeBlock_false_map (p : List BaseInst) :
    removeBlock p false = p.map rdTop := by
  induction p with
  | nil => simp [removeBlock]
  | cons i rest ih => cases i <;> simp [removeBlock, rdTop, ih]

/-- C10: remove_dead_writes never removes a node at the top level of the
program: the output has the same length, every top-level node that is not
a block is returned unchanged at its position, and a top-level block is
only recursed into (with its own stored flag), so eliminations can happen
only inside blocks whose stable flag is true. -/
theorem c10_remove_dead_writes_top_frame (p : List BaseInst) :
    (remove_dead_writes p).length = p.length ∧
    (∀ (k : Nat) inst, p[k]? = some inst →
      (remove_dead_writes p)[k]? = some (rdTop inst)) ∧
    (∀ (k : Nat) inst, p[k]? = some inst → isBlockNode inst = false →
      (remove_dead_writes p)[k]? = some inst) := by
  have hmap : remove_dead_writes p = p.map rdTop := removeBlock_false_map p
  refine ⟨by simp [hmap], ?_, ?_⟩
  · intro k inst hk
    simp [hmap, List.getElem?_map, hk]
  · intro k inst hk hnb
    have : rdTop inst = inst := by cases inst <;> simp_all [rdTop, isBlockNode]
    simp [hmap, List.getElem?_map, hk, this]

theorem c10_witness :
    (remove_dead_writes [BaseInst.Output, .Block [.Reset] true])[0]? =
      some BaseInst.Output :=
  (c10_remove_dead_writes_top_frame [BaseInst.Output, .Block [.Reset] true]).2.2
    0 BaseInst.Output rfl rfl

/-! # Claim C6: Close applies its fused fields only on the re-entry path -/

/-- C6: executing a Close instruction applies the fused inc and delta
fields to the tape cell and the data pointer only on the re-entry path,
together with the jump back to the matching Open (the instruction pointer
becomes arg + 1); when the current cell is zero the tape, the data
pointer, the output and the input are left unchanged and execution falls
through to the next instruction. -/
theorem c6_close_reentry_only (fuel : Nat) (prog : List Inst) (s : MState)
    (inst : Inst) (v : Nat) (hip : prog[s.ip]? = some inst)
    (hcmd : inst.cmd = InstType.Close) (hv : s.data[s.dp]? = some v) :
    (v ≠ 0 → step fuel prog s = some { s with
        data := s.data.set s.dp (u8 (v + inst.inc)),
        dp := wrapIdx s.dp inst.delta,
        ip := (inst.arg % (2 ^ 64)).toNat + 1 }) ∧
    (v = 0 → step fuel prog s = some { s with ip := s.ip + 1 }) := by
  have hdp : s.dp < s.data.length := by
    have := List.getElem?_eq_some_iff.mp hv
    exact this.1
  constructor
  · intro hne
    simp [step, hip, hcmd, tapeGet, tapeSet, hv, hne, hdp]
  · intro heq
    simp [step, hip, hcmd, tapeGet, tapeSet, hv, heq]

theorem c6_witness :
    ((5 : Nat) ≠ 0 → step 0 [⟨InstType.Close, 7, 3, 0⟩] ⟨[5], 0, 0, [], []⟩ =
        some ⟨[12], 3, 1, [], []⟩) ∧
    ((5 : Nat) = 0 → step 0 [⟨InstType.Close, 7, 3, 0⟩] ⟨[5], 0, 0, [], []⟩ =
        some ⟨[5], 0, 1, [], []⟩) :=
  c6_close_reentry_only 0 [⟨InstType.Close, 7, 3, 0⟩] ⟨[5], 0, 0, [], []⟩
    ⟨InstType.Close, 7, 3, 0⟩ 5 rfl rfl rfl

/-! # Claim C5: the pass sequence of fn compile -/

/-- C5 counterexample: on this loop-free program the source pipeline (two
rounds of the repeated sequence) and the claimed pipeline (three rounds)
produce different flat programs, because compress is not idempotent and
the third round begins with another compress. -/
theorem c5_counterexample :
    compile ['>', '-', '>', '-', '+', '<', '+', '<'] ≠
      compileClaimed ['>', '-', '>', '-', '+', '<', '+', '<'] := by
  have hp : parse ['>', '-', '>', '-', '+', '<', '+', '<'] =
      .ok [.Shift 1, .Inc 255, .Shift 1, .Inc 255, .Inc 1, .Shift (-1),
           .Inc 1, .Shift (-1)] := by
    simp [parse, parseB]
  simp only [compile, compileClaimed, hp]
  simp [passRound, finishPasses, compress, compressBlock, collectInc, collectShift,
        u8, fold_simple_loops, fold_mul_loops, fold_skip_loops, skipScan, mulChanges,
        mapAddU8, mapGet, isIncShift, remove_dead_writes, removeBlock, rdBack,
        insertI, removeI, move_repeating_resets, mvBack, mvUnremovable, isBlockNode,
        flatten, flattenBlock, pickInc, pickShift, linkStep,
        List.range_succ, List.range_zero]

/-- C5 amended: compile applies parse, then the prefix sequence
(compress, fold_simple_loops, fold_mul_loops, remove_dead_writes,
remove_dead_writes, move_repeating_resets) run once and repeated once
more (two prefix rounds in total), finishing with compress,
fold_simple_loops, fold_mul_loops, fold_skip_loops, flatten. -/
theorem c5_amended_two_rounds (cs : List Char) :
    compile cs = Except.map (fun p => finishPasses (passRound (passRound p))) (parse cs) := by
  cases h : parse cs <;>
    simp [compile, passRound, finishPasses, Except.map, h]

/-! # Claim C7: idempotence of compression -/

theorem collectInc_noInc (v : Nat) (l : List BaseInst) (h : headIsInc l = false) :
    collectInc v l = (v, l) := by
  cases l with
  | nil => simp [collectInc]
  | cons x rest => cases x <;> simp_all [collectInc, headIsInc]

theorem collectShift_noShift (n : Int) (l : List BaseInst) (h : headIsShift l = false) :
    collectShift n l = (n, l) := by
  cases l with
  | nil => simp [collectShift]
  | cons x rest => cases x <;> simp_all [collectShift, headIsShift]

theorem compressedForm_fixed (l : List BaseInst) (h : compressedForm l = true) :
    compressBlock l = l := by
  induction l using compressBlock.induct with
  | case1 => simp [compressBlock]
  | case2 v rest p hp ih =>
    simp only [compressedForm, Bool.and_eq_true, decide_eq_true_eq] at h
    have hc : collectInc v rest = (v, rest) :=
      collectInc_noInc v rest (by simpa using h.1.2)
    have hpv : p = (v, rest) := hc
    have hih : compressBlock rest = rest := by
      rw [hpv] at ih
      exact ih h.2
    rw [compressBlock, hc]
    simp [h.1.1, hih]
  | case3 v rest p hp ih =>
    simp only [compressedForm, Bool.and_eq_true, decide_eq_true_eq] at h
    have hc : collectInc v rest = (v, rest) :=
      collectInc_noInc v rest (by simpa using h.1.2)
    have hpv : p = (v, rest) := hc
    rw [hpv] at hp
    simp at hp
    exact absurd hp h.1.1
  | case4 n rest p hp ih =>
    simp only [compressedForm, Bool.and_eq_true, decide_eq_true_eq] at h
    have hc : collectShift n rest = (n, rest) :=
      collectShift_noShift n rest (by simpa using h.1.2)
    have hpv : p = (n, rest) := hc
    have hih : compressBlock rest = rest := by
      rw [hpv] at ih
      exact ih h.2
    rw [compressBlock, hc]
    simp [h.1.1, hih]
  | case5 n rest p hp ih =>
    simp only [compressedForm, Bool.and_eq_true, decide_eq_true_eq] at h
    have hc : collectShift n rest = (n, rest) :=
      collectShift_noShift n rest (by simpa using h.1.2)
    have hpv : p = (n, rest) := hc
    rw [hpv] at hp
    simp at hp
    exact absurd hp h.1.1
  | case6 b s rest ih1 ih2 =>
    simp only [compressedForm, Bool.and_eq_true] at h
    rw [compressBlock, ih1 h.1, ih2 h.2]
  | case7 i rest hni hns hnb ih =>
    have hrest : compressedForm rest = true := by
      cases i <;> simp_all [compressedForm]
    cases i <;> simp_all [compressBlock]

/-- C7 counterexample: compress is not idempotent.  Fusing the middle Inc
run of this program to zero and dropping it makes the surrounding Shift
nodes adjacent, but the single left-to-right scan has already passed
them, so a second compression still changes the program. -/
theorem c7_counterexample :
    compress (compress [.Shift 1, .Inc 255, .Inc 1, .Shift (-1)]) ≠
      compress [.Shift 1, .Inc 255, .Inc 1, .Shift (-1)] := by
  simp [compress, compressBlock, collectInc, collectShift, u8]

/-- C7 amended: one compression pass need not be idempotent (see the
counterexample); compressing twice equals compressing once exactly when
the first compression leaves no two adjacent nodes of the same fusible
kind, i.e. when its output is in compressed form. -/
theorem c7_amended_idempotent_on_compressed (p : List BaseInst)
    (h : compressedForm (compress p) = true) :
    compress (compress p) = compress p :=
  compressedForm_fixed (compress p) h

theorem c7_witness :
    compressedForm (compress [BaseInst.Inc 1, .Shift 2]) = true ∧
    compress (compress [BaseInst.Inc 1, .Shift 2]) = compress [BaseInst.Inc 1, .Shift 2] :=
  ⟨by simp [compress, compressBlock, collectInc, collectShift, u8, compressedForm,
            headIsInc, headIsShift],
   c7_amended_idempotent_on_compressed [BaseInst.Inc 1, .Shift 2]
     (by simp [compress, compressBlock, collectInc, collectShift, u8, compressedForm,
               headIsInc, headIsShift])⟩

/-! # Claim C3: correctness of the mul-loop fold -/

theorem u8_lt (n : Nat) : u8 n < 256 := Nat.mod_lt _ (by omega)

theorem u8_u8_add (a b : Nat) : u8 (u8 a + b) = u8 (a + b) := by
  simp only [u8]
  omega

theorem u8_add_u8 (a b : Nat) : u8 (a + u8 b) = u8 (a + b) := by
  simp only [u8]
  omega

theorem u8_small (a : Nat) (h : a < 256) : u8 a = a := Nat.mod_eq_of_lt h

/-- The targets of the mul-loop rewrite: the entries of the symbolic
change map with nonzero offset and nonzero weight, in map (ascending key)
order, exactly as fold_mul_loops computes them. -/
def mulTargets (body : List BaseInst) : List (Int × Nat) :=
  (mulChanges body 0 [(0, 0)]).filter (fun e => e.1 != 0 && e.2 != 0)

theorem mapGet_none (m : List (Int × Nat)) (o : Int)
    (h : ∀ e ∈ m, ¬ o = e.1) : mapGet m o = none := by
  induction m with
  | nil => simp [mapGet]
  | cons e rest ih =>
    obtain ⟨k', v'⟩ := e
    have h1 : ¬ o = k' := h (k', v') (by simp)
    simp [mapGet, h1]
    exact ih (fun x hx => h x (List.mem_cons_of_mem _ hx))

theorem mapAddU8_get (m : List (Int × Nat)) (k : Int) (v : Nat) (o : Int)
    (hs : List.Pairwise (fun a b : Int × Nat => a.1 < b.1) m) :
    mapGet (mapAddU8 m k v) o =
      if o = k then some (u8 ((mapGet m k).getD 0 + v)) else mapGet m o := by
  induction m with
  | nil =>
    by_cases h : o = k <;> simp [mapAddU8, mapGet, h]
  | cons e rest ih =>
    obtain ⟨k', v'⟩ := e
    rw [List.pairwise_cons] at hs
    by_cases h1 : k < k'
    · have hkk : ¬ k = k' := by omega
      have hrest : mapGet rest k = none := by
        apply mapGet_none
        intro e he
        have := hs.1 e he
        omega
      by_cases h : o = k
      · subst h
        simp [mapAddU8, h1, mapGet, hkk, hrest]
      · simp [mapAddU8, h1, mapGet, h]
    · by_cases h2 : k = k'
      · subst h2
        by_cases h : o = k <;> simp [mapAddU8, h1, mapGet, h]
      · have h2s : ¬ k' = k := fun hh => h2 hh.symm
        by_cases h : o = k
        · subst h
          simp [mapAddU8, h1, h2, mapGet, ih hs.2, h2s]
        · by_cases h3 : o = k'
          · subst h3
            simp [mapAddU8, h1, h2, mapGet, ih hs.2, h2s]
          · simp [mapAddU8, h1, h2, mapGet, ih hs.2, h, h3]

theorem mapAddU8_mem_key (m : List (Int × Nat)) (k : Int) (v : Nat) (e : Int × Nat)
    (he : e ∈ mapAddU8 m k v) : e ∈ m ∨ e.1 = k := by
  induction m with
  | nil =>
    simp [mapAddU8] at he
    simp [he]
  | cons x rest ih =>
    obtain ⟨k', v'⟩ := x
    by_cases h1 : k < k'
    · simp only [mapAddU8, h1, if_pos] at he
      rcases List.mem_cons.mp he with rfl | he
      · simp
      · exact Or.inl he
    · by_cases h2 : k = k'
      · subst h2
        simp only [mapAddU8, h1, if_neg, lt_self_iff_false, not_false_iff,
          if_pos rfl] at he
        rcases List.mem_cons.mp he with rfl | he
        · exact Or.inr rfl
        · exact Or.inl (List.mem_cons_of_mem _ he)
      · simp only [mapAddU8, h1, h2, if_neg, not_false_iff] at he
        rcases List.mem_cons.mp he with rfl | he
        · exact Or.inl (by simp)
        · rcases ih he with he' | hk
          · exact Or.inl (List.mem_cons_of_mem _ he')
          · exact Or.inr hk

theorem mapAddU8_sorted (m : List (Int × Nat)) (k : Int) (v : Nat)
    (h : List.Pairwise (fun a b : Int × Nat => a.1 < b.1) m) :
    List.Pairwise (fun a b : Int × Nat => a.1 < b.1) (mapAddU8 m k v) := by
  induction m with
  | nil => simp [mapAddU8]
  | cons e rest ih =>
    obtain ⟨k', v'⟩ := e
    rw [List.pairwise_cons] at h
    by_cases h1 : k < k'
    · simp only [mapAddU8, h1, if_pos]
      refine List.pairwise_cons.mpr ⟨?_, List.pairwise_cons.mpr ⟨h.1, h.2⟩⟩
      intro e he
      rcases List.mem_cons.mp he with rfl | he
      · exact h1
      · exact lt_trans h1 (h.1 e he)
    · by_cases h2 : k = k'
      · subst h2
        have hrw : mapAddU8 ((k, v') :: rest) k v = (k, u8 (v' + v)) :: rest := by
          simp [mapAddU8]
        rw [hrw]
        exact List.pairwise_cons.mpr ⟨h.1, h.2⟩
      · simp only [mapAddU8, h1, h2, if_neg, not_false_iff]
        refine List.pairwise_cons.mpr ⟨?_, ih h.2⟩
        intro e he
        have hmem := mapAddU8_mem_key rest k v e he
        rcases hmem with he' | rfl
        · exact h.1 e he'
        · omega

theorem mapAddU8_vals (m : List (Int × Nat)) (k : Int) (v : Nat) (e : Int × Nat)
    (hm : ∀ x ∈ m, x.2 < 256) (he : e ∈ mapAddU8 m k v) : e.2 < 256 := by
  induction m with
  | nil =>
    simp [mapAddU8] at he
    simp [he, u8_lt]
  | cons x rest ih =>
    obtain ⟨k', v'⟩ := x
    by_cases h1 : k < k'
    · simp only [mapAddU8, h1, if_pos] at he
      rcases List.mem_cons.mp he with rfl | he
      · exact u8_lt v
      · exact hm e he
    · by_cases h2 : k = k'
      · subst h2
        simp only [mapAddU8, h1, if_neg, lt_self_iff_false, not_false_iff,
          if_pos rfl] at he
        rcases List.mem_cons.mp he with rfl | he
        · exact u8_lt _
        · exact hm e (List.mem_cons_of_mem _ he)
      · simp only [mapAddU8, h1, h2, if_neg, not_false_iff] at he
        rcases List.mem_cons.mp he with rfl | he
        · exact hm _ (by simp)
        · exact ih (fun x hx => hm x (List.mem_cons_of_mem _ hx)) he

theorem mapGet_mem (m : List (Int × Nat)) (o : Int) (w : Nat)
    (h : mapGet m o = some w) : (o, w) ∈ m := by
  induction m with
  | nil => simp [mapGet] at h
  | cons e rest ih =>
    obtain ⟨k', v'⟩ := e
    by_cases h1 : o = k'
    · subst h1
      simp [mapGet] at h
      simp [h]
    · simp [mapGet, h1] at h
      exact List.mem_cons_of_mem _ (ih h)

theorem mem_mapGet (m : List (Int × Nat)) (o : Int) (w : Nat)
    (hs : List.Pairwise (fun a b : Int × Nat => a.1 < b.1) m)
    (h : (o, w) ∈ m) : mapGet m o = some w := by
  induction m with
  | nil => simp at h
  | cons e rest ih =>
    obtain ⟨k', v'⟩ := e
    rw [List.pairwise_cons] at hs
    rcases List.mem_cons.mp h with heq | hmem
    · simp at heq
      simp [mapGet, heq]
    · have hk : k' < o := by
        have := hs.1 (o, w) hmem
        simpa using this
      have : ¬ o = k' := by omega
      simp [mapGet, this]
      exact ih hs.2 hmem

theorem mulChanges_sorted (body : List BaseInst) :
    ∀ ptr m, List.Pairwise (fun a b : Int × Nat => a.1 < b.1) m →
      List.Pairwise (fun a b : Int × Nat => a.1 < b.1) (mulChanges body ptr m) := by
  induction body with
  | nil => intro ptr m h; simpa [mulChanges] using h
  | cons x rest ih =>
    intro ptr m h
    cases x with
    | Inc v => exact ih ptr _ (mapAddU8_sorted m ptr v h)
    | Shift n => exact ih (ptr + n) m h
    | Output => exact ih ptr m h
    | Input => exact ih ptr m h
    | Reset => exact ih ptr m h
    | Mul o w => exact ih ptr m h
    | Seek n => exact ih ptr m h
    | Skip a v d => exact ih ptr m h
    | Block b f => exact ih ptr m h

theorem mulChanges_vals (body : List BaseInst) :
    ∀ ptr m, (∀ e ∈ m, e.2 < 256) →
      ∀ e ∈ mulChanges body ptr m, e.2 < 256 := by
  induction body with
  | nil => intro ptr m h; simpa [mulChanges] using h
  | cons x rest ih =>
    intro ptr m h
    cases x with
    | Inc v => exact ih ptr _ (fun e he => mapAddU8_vals m ptr v e h he)
    | Shift n => exact ih (ptr + n) m h
    | Output => exact ih ptr m h
    | Input => exact ih ptr m h
    | Reset => exact ih ptr m h
    | Mul o w => exact ih ptr m h
    | Seek n => exact ih ptr m h
    | Skip a v d => exact ih ptr m h
    | Block b f => exact ih ptr m h

theorem rawChange_shift (body : List BaseInst) (c : Int) :
    ∀ p o, rawChange body (p + c) (o + c) = rawChange body p o := by
  induction body with
  | nil => simp [rawChange]
  | cons x rest ih =>
    intro p o
    cases x with
    | Inc v =>
      have hiff : (p + c = o + c) = (p = o) := by
        apply propext
        omega
      simp only [rawChange, hiff, ih p o]
    | Shift n =>
      show rawChange rest (p + c + n) (o + c) = rawChange rest (p + n) o
      have harg : p + c + n = p + n + c := by ring
      rw [harg]
      exact ih (p + n) o
    | Output => exact ih p o
    | Input => exact ih p o
    | Reset => exact ih p o
    | Mul off w => exact ih p o
    | Seek n => exact ih p o
    | Skip a v d => exact ih p o
    | Block b f => exact ih p o

theorem hasIncAt_false_raw (body : List BaseInst) :
    ∀ p o, hasIncAt body p o = false → rawChange body p o = 0 := by
  induction body with
  | nil => simp [rawChange]
  | cons x rest ih =>
    intro p o h
    cases x with
    | Inc v =>
      simp only [hasIncAt, Bool.or_eq_false_iff] at h
      have hpo : ¬ p = o := by
        intro hh
        rw [hh] at h
        simp at h
      simp [rawChange, hpo, ih p o h.2]
    | Shift n => exact ih (p + n) o h
    | Output => exact ih p o h
    | Input => exact ih p o h
    | Reset => exact ih p o h
    | Mul off w => exact ih p o h
    | Seek n => exact ih p o h
    | Skip a v d => exact ih p o h
    | Block b f => exact ih p o h

theorem mulChanges_get_some (body : List BaseInst) :
    ∀ ptr m o x, List.Pairwise (fun a b : Int × Nat => a.1 < b.1) m →
      (∀ e ∈ m, e.2 < 256) → mapGet m o = some x →
      mapGet (mulChanges body ptr m) o = some (u8 (x + rawChange body ptr o)) := by
  induction body with
  | nil =>
    intro ptr m o x hs hv hx
    have hxlt : x < 256 := hv (o, x) (mapGet_mem m o x hx)
    simp [mulChanges, rawChange, hx, u8_small x hxlt]
  | cons ins rest ih =>
    intro ptr m o x hs hv hx
    cases ins with
    | Inc v =>
      have hs' := mapAddU8_sorted m ptr v hs
      have hv' := fun e he => mapAddU8_vals m ptr v e hv he
      by_cases hop : o = ptr
      · subst hop
        have hget : mapGet (mapAddU8 m o v) o = some (u8 (x + v)) := by
          rw [mapAddU8_get m o v o hs]
          simp [hx]
        have hrec := ih o _ o (u8 (x + v)) hs' hv' hget
        rw [mulChanges, hrec, u8_u8_add]
        have hraw : rawChange (BaseInst.Inc v :: rest) o o =
            v + rawChange rest o o := by
          simp [rawChange]
        rw [hraw]
        congr 2
        ring
      · have hget : mapGet (mapAddU8 m ptr v) o = some x := by
          rw [mapAddU8_get m ptr v o hs]
          simp [hop, hx]
        have hrec := ih ptr _ o x hs' hv' hget
        rw [mulChanges, hrec]
        have hpo : ¬ ptr = o := fun hh => hop hh.symm
        have hraw : rawChange (BaseInst.Inc v :: rest) ptr o =
            rawChange rest ptr o := by
          simp [rawChange, hpo]
        rw [hraw]
    | Shift n => exact ih (ptr + n) m o x hs hv hx
    | Output => exact ih ptr m o x hs hv hx
    | Input => exact ih ptr m o x hs hv hx
    | Reset => exact ih ptr m o x hs hv hx
    | Mul off w => exact ih ptr m o x hs hv hx
    | Seek n => exact ih ptr m o x hs hv hx
    | Skip a v d => exact ih ptr m o x hs hv hx
    | Block b f => exact ih ptr m o x hs hv hx

theorem mulChanges_get_none (body : List BaseInst) :
    ∀ ptr m o, List.Pairwise (fun a b : Int × Nat => a.1 < b.1) m →
      (∀ e ∈ m, e.2 < 256) → mapGet m o = none →
      mapGet (mulChanges body ptr m) o =
        if hasIncAt body ptr o then some (u8 (rawChange body ptr o)) else none := by
  induction body with
  | nil =>
    intro ptr m o hs hv hx
    simp [mulChanges, hasIncAt, hx]
  | cons ins rest ih =>
    intro ptr m o hs hv hx
    cases ins with
    | Inc v =>
      have hs' := mapAddU8_sorted m ptr v hs
      have hv' := fun e he => mapAddU8_vals m ptr v e hv he
      by_cases hop : o = ptr
      · subst hop
        have hget : mapGet (mapAddU8 m o v) o = some (u8 v) := by
          rw [mapAddU8_get m o v o hs]
          simp [hx]
        have hrec := mulChanges_get_some rest o _ o (u8 v) hs' hv' hget
        rw [mulChanges, hrec, u8_u8_add]
        have hh : hasIncAt (BaseInst.Inc v :: rest) o o = true := by
          simp [hasIncAt]
        have hraw : rawChange (BaseInst.Inc v :: rest) o o =
            v + rawChange rest o o := by
          simp [rawChange]
        rw [hh, hraw]
        simp
      · have hget : mapGet (mapAddU8 m ptr v) o = none := by
          rw [mapAddU8_get m ptr v o hs]
          simp [hop, hx]
        have hrec := ih ptr _ o hs' hv' hget
        rw [mulChanges, hrec]
        have hpo : ¬ ptr = o := fun hh => hop hh.symm
        have hh : hasIncAt (BaseInst.Inc v :: rest) ptr o = hasIncAt rest ptr o := by
          simp [hasIncAt, hpo]
        have hraw : rawChange (BaseInst.Inc v :: rest) ptr o =
            rawChange rest ptr o := by
          simp [rawChange, hpo]
        rw [hh, hraw]
    | Shift n => exact ih (ptr + n) m o hs hv hx
    | Output => exact ih ptr m o hs hv hx
    | Input => exact ih ptr m o hs hv hx
    | Reset => exact ih ptr m o hs hv hx
    | Mul off w => exact ih ptr m o hs hv hx
    | Seek n => exact ih ptr m o hs hv hx
    | Skip a v d => exact ih ptr m o hs hv hx
    | Block b f => exact ih ptr m o hs hv hx


theorem applyIS_dp (body : List BaseInst) :
    ∀ t dp, (applyIS body t dp).2 = dp + shiftSumB body := by
  induction body with
  | nil => simp [applyIS, shiftSumB]
  | cons x rest ih =>
    intro t dp
    cases x with
    | Inc v => simp [applyIS, shiftSumB, ih]
    | Shift n =>
      show (applyIS rest t (dp + n)).2 = dp + shiftSumB (BaseInst.Shift n :: rest)
      rw [ih t (dp + n)]
      simp [shiftSumB]
      ring
    | Output => simp [applyIS, shiftSumB, ih]
    | Input => simp [applyIS, shiftSumB, ih]
    | Reset => simp [applyIS, shiftSumB, ih]
    | Mul o w => simp [applyIS, shiftSumB, ih]
    | Seek n => simp [applyIS, shiftSumB, ih]
    | Skip a v d => simp [applyIS, shiftSumB, ih]
    | Block b f => simp [applyIS, shiftSumB, ih]

theorem applyIS_tape (body : List BaseInst) :
    ∀ t dp, (∀ j, t j < 256) →
      ∀ i, (applyIS body t dp).1 i = u8 (t i + rawChange body 0 (i - dp)) := by
  induction body with
  | nil =>
    intro t dp ht i
    simp [applyIS, rawChange, u8_small _ (ht i)]
  | cons x rest ih =>
    intro t dp ht i
    cases x with
    | Inc v =>
      have ht' : ∀ j, updT t dp (u8 (t dp + v)) j < 256 := by
        intro j
        unfold updT
        by_cases hj : j = dp
        · simp [hj, u8_lt]
        · simp [hj, ht j]
      have hrec := ih (updT t dp (u8 (t dp + v))) dp ht' i
      show (applyIS rest (updT t dp (u8 (t dp + v))) dp).1 i = _
      rw [hrec]
      by_cases hi : i = dp
      · subst hi
        have hcond : (0 : Int) = i - i := by ring
        simp [updT, rawChange, ← hcond, u8_u8_add]
        congr 1
        ring
      · have hne : ¬ (0 : Int) = i - dp := by
          intro hh
          apply hi
          omega
        simp [updT, hi, rawChange, hne]
    | Shift n =>
      have hrec := ih t (dp + n) ht i
      show (applyIS rest t (dp + n)).1 i = _
      rw [hrec]
      have hraw : rawChange (BaseInst.Shift n :: rest) 0 (i - dp) =
          rawChange rest 0 (i - dp - n) := by
        show rawChange rest (0 + n) (i - dp) = rawChange rest 0 (i - dp - n)
        have key := rawChange_shift rest n 0 (i - dp - n)
        have harg : i - dp - n + n = i - dp := by ring
        rw [harg] at key
        exact key
      rw [hraw]
      have h3 : i - (dp + n) = i - dp - n := by ring
      rw [h3]
    | Output =>
      have hraw : rawChange (BaseInst.Output :: rest) 0 (i - dp) =
          rawChange rest 0 (i - dp) := rfl
      rw [hraw]
      exact ih t dp ht i
    | Input => exact ih t dp ht i
    | Reset => exact ih t dp ht i
    | Mul o w => exact ih t dp ht i
    | Seek n => exact ih t dp ht i
    | Skip a v d => exact ih t dp ht i
    | Block b f => exact ih t dp ht i

theorem loopExec_iter (body : List BaseInst)
    (hsum : shiftSumB body = 0) (hraw : u8 (rawChange body 0 0) = 255) :
    ∀ n t dp, (∀ j, t j < 256) → t dp = n →
      loopExec body n t dp =
        some (fun i => u8 (t i + n * rawChange body 0 (i - dp)), dp) := by
  intro n
  induction n with
  | zero =>
    intro t dp ht h0
    simp only [loopExec, h0, if_pos, reduceIte]
    congr 1
    refine Prod.ext ?_ rfl
    funext i
    simp [u8_small _ (ht i)]
  | succ n ihn =>
    intro t dp ht h0
    have hne : ¬ t dp = 0 := by omega
    have hdp1 : (applyIS body t dp).2 = dp := by
      rw [applyIS_dp body t dp, hsum]
      ring
    have htape := applyIS_tape body t dp ht
    have ht1 : ∀ j, (applyIS body t dp).1 j < 256 := by
      intro j
      rw [htape j]
      exact u8_lt _
    have ht1dp : (applyIS body t dp).1 dp = n := by
      rw [htape dp]
      have hzero : dp - dp = (0 : Int) := by ring
      rw [hzero]
      have h255 : rawChange body 0 0 % 256 = 255 := hraw
      have hlt := ht dp
      simp only [u8] at h255 ⊢
      omega
    have hrec := ihn (applyIS body t dp).1 dp ht1 ht1dp
    show (if t dp = 0 then some (t, dp)
          else loopExec body n (applyIS body t dp).1 (applyIS body t dp).2) = _
    rw [if_neg hne, hdp1, hrec]
    congr 1
    refine Prod.ext ?_ rfl
    funext i
    simp only
    rw [htape i, u8_u8_add]
    congr 1
    ring

theorem execMulReset_append (l1 l2 : List BaseInst) :
    ∀ t dp, execMulReset (l1 ++ l2) t dp =
      execMulReset l2 (execMulReset l1 t dp).1 (execMulReset l1 t dp).2 := by
  induction l1 with
  | nil => simp [execMulReset]
  | cons x rest ih =>
    intro t dp
    cases x <;> simp [execMulReset, ih]

theorem execMulReset_dp (l : List BaseInst) :
    ∀ t dp, (execMulReset l t dp).2 = dp := by
  induction l with
  | nil => simp [execMulReset]
  | cons x rest ih =>
    intro t dp
    cases x <;> simp [execMulReset, ih]

theorem execMul_zero (ts : List (Int × Nat)) :
    ∀ t dp, t dp = 0 →
      execMulReset (ts.map (fun e => BaseInst.Mul e.1 e.2)) t dp = (t, dp) := by
  induction ts with
  | nil => simp [execMulReset]
  | cons e rest ih =>
    intro t dp h0
    obtain ⟨o, w⟩ := e
    simp only [List.map_cons, execMulReset, h0]
    simp
    exact ih t dp h0

theorem execMul_list (ts : List (Int × Nat)) :
    ∀ t dp, t dp ≠ 0 → (∀ e ∈ ts, e.1 ≠ (0 : Int)) →
      List.Pairwise (fun a b : Int × Nat => a.1 < b.1) ts →
      (∀ o w, (o, w) ∈ ts →
        (execMulReset (ts.map (fun e => BaseInst.Mul e.1 e.2)) t dp).1 (dp + o) =
          u8 (t (dp + o) + t dp * w)) ∧
      (∀ i, (∀ e ∈ ts, ¬ dp + e.1 = i) →
        (execMulReset (ts.map (fun e => BaseInst.Mul e.1 e.2)) t dp).1 i = t i) := by
  induction ts with
  | nil => simp [execMulReset]
  | cons e rest ih =>
    intro t dp hnz hoff hsort
    obtain ⟨o, w⟩ := e
    rw [List.pairwise_cons] at hsort
    have ho : o ≠ 0 := hoff (o, w) (by simp)
    have hdpo : ¬ dp + o = dp := by omega
    have hstep : execMulReset (((o, w) :: rest).map (fun e => BaseInst.Mul e.1 e.2)) t dp =
        execMulReset (rest.map (fun e => BaseInst.Mul e.1 e.2))
          (updT t (dp + o) (u8 (t (dp + o) + t dp * w))) dp := by
      simp only [List.map_cons, execMulReset]
      rw [if_pos hnz]
    set t1 := updT t (dp + o) (u8 (t (dp + o) + t dp * w)) with ht1def
    have ht1dp : t1 dp = t dp := by
      simp [ht1def, updT, hdpo, ho]
    have hrest := ih t1 dp (by rw [ht1dp]; exact hnz)
      (fun e he => hoff e (List.mem_cons_of_mem _ he)) hsort.2
    constructor
    · intro o' w' hmem
      rcases List.mem_cons.mp hmem with heq | hmem'
      · simp only [Prod.mk.injEq] at heq
        rw [heq.1, heq.2, hstep]
        have huntouched : ∀ e ∈ rest, ¬ dp + e.1 = dp + o := by
          intro e he
          have := hsort.1 e he
          omega
        rw [hrest.2 (dp + o) huntouched]
        simp [ht1def, updT]
      · have hne : ¬ o' = o := by
          have := hsort.1 (o', w') hmem'
          simp at this
          omega
        rw [hstep, hrest.1 o' w' hmem']
        have ht1v : t1 (dp + o') = t (dp + o') := by
          have hdd : ¬ dp + o' = dp + o := by omega
          simp [ht1def, updT, hdd, hne]
        rw [ht1v, ht1dp]
    · intro i hunt
      have hio : ¬ dp + o = i := hunt (o, w) (by simp)
      have hio' : ¬ i = dp + o := fun hh => hio hh.symm
      rw [hstep, hrest.2 i (fun e he => hunt e (List.mem_cons_of_mem _ he))]
      simp [ht1def, updT, hio']

theorem fold_mul_id (l : List BaseInst) (h : ∀ x ∈ l, isIncShift x = true) :
    fold_mul_loops l = l := by
  induction l with
  | nil => simp [fold_mul_loops]
  | cons x rest ih =>
    have hx := h x (by simp)
    have hr := ih (fun y hy => h y (List.mem_cons_of_mem _ hy))
    cases x <;> simp_all [isIncShift, fold_mul_loops]


theorem u8_add_mul_u8 (a n r : Nat) : u8 (a + n * u8 r) = u8 (a + n * r) := by
  simp only [u8]
  conv_lhs => rw [Nat.add_mod, Nat.mul_mod]
  conv_rhs => rw [Nat.add_mod, Nat.mul_mod]
  have hmm2 : r % 256 % 256 = r % 256 := by omega
  rw [hmm2]

/-- C3: for a stable block (stored flag true and net pointer displacement
zero) whose body consists solely of Inc and Shift nodes and whose
symbolic evaluation gives the entry cell a net change of 255 modulo 256,
fold_mul_loops replaces the block by Mul(off, weight) nodes, one per
nonzero offset carrying a nonzero weight, in ascending offset order,
followed by a Reset of the entry cell, and for every starting tape of
bytes executing the folded sequence yields a tape identical to executing
the original loop. -/
theorem c3_mul_loop_fold (body : List BaseInst) (flag : Bool)
    (hflag : flag = true) (hIS : ∀ x ∈ body, isIncShift x = true)
    (hsum : shiftSumB body = 0) (hraw : u8 (rawChange body 0 0) = 255) :
    fold_mul_loops [.Block body flag] =
        (mulTargets body).map (fun e => BaseInst.Mul e.1 e.2) ++ [.Reset] ∧
    List.Pairwise (fun a b : Int × Nat => a.1 < b.1) (mulTargets body) ∧
    (∀ o w, (o, w) ∈ mulTargets body ↔
        o ≠ 0 ∧ hasIncAt body 0 o = true ∧ w = u8 (rawChange body 0 o) ∧ w ≠ 0) ∧
    (∀ t dp, (∀ j, t j < 256) →
      loopExec body (t dp) t dp =
        some ((execMulReset
          ((mulTargets body).map (fun e => BaseInst.Mul e.1 e.2) ++ [.Reset]) t dp).1,
          dp)) := by
  have hs0 : List.Pairwise (fun a b : Int × Nat => a.1 < b.1) [((0 : Int), (0 : Nat))] := by
    simp
  have hv0 : ∀ e ∈ [((0 : Int), (0 : Nat))], e.2 < 256 := by simp
  have hmsorted := mulChanges_sorted body 0 [((0 : Int), (0 : Nat))] hs0
  have hmvals := mulChanges_vals body 0 [((0 : Int), (0 : Nat))] hv0
  have htsort : List.Pairwise (fun a b : Int × Nat => a.1 < b.1) (mulTargets body) :=
    List.Pairwise.sublist (List.filter_sublist _) hmsorted
  have hget00 : mapGet [((0 : Int), (0 : Nat))] 0 = some 0 := by simp [mapGet]
  have hget0 : mapGet (mulChanges body 0 [(0, 0)]) 0 =
      some (u8 (rawChange body 0 0)) := by
    have := mulChanges_get_some body 0 [((0 : Int), (0 : Nat))] 0 0 hs0 hv0 hget00
    simpa using this
  have hchar : ∀ o w, (o, w) ∈ mulTargets body ↔
      o ≠ 0 ∧ hasIncAt body 0 o = true ∧ w = u8 (rawChange body 0 o) ∧ w ≠ 0 := by
    intro o w
    constructor
    · intro hmem
      rw [mulTargets, List.mem_filter] at hmem
      obtain ⟨hm, hcond⟩ := hmem
      simp only [bne_iff_ne, ne_eq, Bool.and_eq_true, decide_eq_true_eq] at hcond
      have hget := mem_mapGet _ o w hmsorted hm
      have hnone : mapGet [((0 : Int), (0 : Nat))] o = none := by
        simp [mapGet, hcond.1]
      have hg := mulChanges_get_none body 0 [((0 : Int), (0 : Nat))] o hs0 hv0 hnone
      rw [hg] at hget
      cases hh : hasIncAt body 0 o with
      | false =>
        rw [hh] at hget
        simp at hget
      | true =>
        rw [hh] at hget
        simp at hget
        exact ⟨hcond.1, rfl, hget.symm, hcond.2⟩
    · rintro ⟨ho, hh, hw, hwne⟩
      have hnone : mapGet [((0 : Int), (0 : Nat))] o = none := by
        simp [mapGet, ho]
      have hgetm := mulChanges_get_none body 0 [((0 : Int), (0 : Nat))] o hs0 hv0 hnone
      rw [hh] at hgetm
      simp only [if_pos] at hgetm
      have hm : (o, w) ∈ mulChanges body 0 [(0, 0)] := by
        rw [hw]
        exact mapGet_mem _ _ _ hgetm
      rw [mulTargets, List.mem_filter]
      refine ⟨hm, ?_⟩
      simp [ho, hwne]
  have hall : body.all isIncShift = true := List.all_eq_true.mpr hIS
  have hget255 : mapGet (mulChanges body 0 [(0, 0)]) 0 = some 255 := by
    rw [hget0, hraw]
  have hfold : fold_mul_loops [.Block body flag] =
      (mulTargets body).map (fun e => BaseInst.Mul e.1 e.2) ++ [.Reset] := by
    rw [hflag]
    have hinner : fold_mul_loops body = body := fold_mul_id body hIS
    simp only [fold_mul_loops, hinner, hall, Bool.and_self, if_pos, hget255, reduceIte]
    simp [mulTargets, fold_mul_loops]
  refine ⟨hfold, htsort, hchar, ?_⟩
  intro t dp ht
  have hoffs : ∀ e ∈ mulTargets body, e.1 ≠ (0 : Int) := by
    intro e he
    have he' : (e.1, e.2) ∈ mulTargets body := by simpa using he
    exact ((hchar e.1 e.2).mp he').1
  have hres : ∀ (x : Int → Nat) (y : Int),
      execMulReset [BaseInst.Reset] x y = (updT x y 0, y) := by
    intro x y
    simp [execMulReset]
  by_cases h0 : t dp = 0
  · rw [h0]
    have hL : loopExec body 0 t dp = some (t, dp) := by
      simp [loopExec, h0]
    rw [hL, execMulReset_append, execMul_zero _ t dp h0]
    simp only [hres]
    congr 1
    refine Prod.ext ?_ rfl
    funext i
    by_cases hi : i = dp
    · subst hi
      simp [updT, h0]
    · simp [updT, hi]
  · have hn := loopExec_iter body hsum hraw (t dp) t dp ht rfl
    rw [hn, execMulReset_append]
    have hdpA : (execMulReset ((mulTargets body).map (fun e => BaseInst.Mul e.1 e.2)) t dp).2
        = dp := execMulReset_dp _ t dp
    rw [hdpA, hres]
    have hlist := execMul_list (mulTargets body) t dp h0 hoffs htsort
    simp only [Option.some.injEq, Prod.mk.injEq]
    refine ⟨funext fun i => ?_, by trivial⟩
    by_cases hi : i = dp
    · subst hi
      have hz : i - i = (0 : Int) := by ring
      rw [hz]
      have hrhs : updT (execMulReset ((mulTargets body).map
          (fun e => BaseInst.Mul e.1 e.2)) t i).1 i 0 i = 0 := by
        simp [updT]
      rw [hrhs]
      obtain ⟨q, hq⟩ : ∃ q, rawChange body 0 0 = 256 * q + 255 := by
        have h255 : rawChange body 0 0 % 256 = 255 := hraw
        exact ⟨rawChange body 0 0 / 256, by omega⟩
      rw [hq]
      have hmul : t i + t i * (256 * q + 255) = 256 * (t i * (q + 1)) := by ring
      rw [hmul]
      simp [u8, Nat.mul_mod_right]
    · have hrhs : updT (execMulReset ((mulTargets body).map
          (fun e => BaseInst.Mul e.1 e.2)) t dp).1 dp 0 i =
          (execMulReset ((mulTargets body).map
            (fun e => BaseInst.Mul e.1 e.2)) t dp).1 i := by
        simp [updT, hi]
      rw [hrhs]
      by_cases hmem : ∃ w, (i - dp, w) ∈ mulTargets body
      · obtain ⟨w, hw⟩ := hmem
        have hii : dp + (i - dp) = i := by ring
        have h1 := hlist.1 (i - dp) w hw
        rw [hii] at h1
        rw [h1]
        have hwv : w = u8 (rawChange body 0 (i - dp)) := ((hchar _ _).mp hw).2.2.1
        rw [hwv, u8_add_mul_u8]
      · have huntouched : ∀ e ∈ mulTargets body, ¬ dp + e.1 = i := by
          intro e he hcontra
          apply hmem
          refine ⟨e.2, ?_⟩
          have he1 : e.1 = i - dp := by omega
          have : (e.1, e.2) ∈ mulTargets body := by simpa using he
          rw [he1] at this
          exact this
        rw [hlist.2 i huntouched]
        cases hhas : hasIncAt body 0 (i - dp) with
        | false =>
          rw [hasIncAt_false_raw body 0 (i - dp) hhas]
          simp [u8_small _ (ht i)]
        | true =>
          have hne0 : i - dp ≠ 0 := by
            intro hc
            apply hi
            omega
          have hu8raw : u8 (rawChange body 0 (i - dp)) = 0 := by
            by_contra hnz
            apply hmem
            refine ⟨u8 (rawChange body 0 (i - dp)), ?_⟩
            exact (hchar _ _).mpr ⟨hne0, hhas, rfl, hnz⟩
          obtain ⟨q, hq⟩ : ∃ q, rawChange body 0 (i - dp) = 256 * q := by
            have : rawChange body 0 (i - dp) % 256 = 0 := hu8raw
            exact ⟨rawChange body 0 (i - dp) / 256, by omega⟩
          rw [hq]
          have hmul : t i + t dp * (256 * q) = t i + 256 * (t dp * q) := by ring
          rw [hmul]
          have hti := ht i
          simp only [u8]
          omega

theorem c3_witness :
    fold_mul_loops [.Block [.Inc 255, .Shift 1, .Inc 2, .Shift (-1)] true] =
      (mulTargets [.Inc 255, .Shift 1, .Inc 2, .Shift (-1)]).map
        (fun e => BaseInst.Mul e.1 e.2) ++ [.Reset] :=
  (c3_mul_loop_fold [.Inc 255, .Shift 1, .Inc 2, .Shift (-1)] true rfl
    (by simp [isIncShift]) (by simp [shiftSumB]) (by decide)).1


/-- C4 counterexample: a block whose body is a single Shift and no Inc
satisfies the shape of the claim (any number of Shift nodes, at most one
Inc, with v = 0 and d = 0 when the Inc is absent), yet fold_skip_loops
leaves it unchanged, because the source requires inc_detected. -/
theorem c4_counterexample :
    fold_skip_loops [.Block [.Shift 1] false] ≠ [.Skip 1 0 0] := by
  simp [fold_skip_loops, skipScan]

theorem skipScan_allShift (l : List BaseInst) (q : Int) (det : Option (Nat × Int))
    (h : ∀ x ∈ l, isShiftNode x = true) :
    skipScan l q det = some (q + shiftSumB l, det) := by
  induction l generalizing q with
  | nil => simp [skipScan, shiftSumB]
  | cons x rest ih =>
    have hx := h x (by simp)
    have hr : ∀ y ∈ rest, isShiftNode y = true := fun y hy => h y (by simp [hy])
    cases x <;> simp_all [isShiftNode, skipScan, shiftSumB]
    omega

theorem skipScan_shift_seg (pre l : List BaseInst) (q : Int) (det : Option (Nat × Int))
    (h : ∀ x ∈ pre, isShiftNode x = true) :
    skipScan (pre ++ l) q det = skipScan l (q + shiftSumB pre) det := by
  induction pre generalizing q with
  | nil => simp [shiftSumB]
  | cons x rest ih =>
    have hx := h x (by simp)
    have hr : ∀ y ∈ rest, isShiftNode y = true := fun y hy => h y (by simp [hy])
    cases x <;> simp_all [isShiftNode, skipScan, shiftSumB]
    rw [add_assoc]

theorem skipScan_det_some (l : List BaseInst) (q p : Int) (t : Nat × Int)
    (det' : Option (Nat × Int)) (h : skipScan l q (some t) = some (p, det')) :
    det' = some t ∧ (∀ x ∈ l, isShiftNode x = true) ∧ p = q + shiftSumB l := by
  induction l generalizing q with
  | nil =>
    simp [skipScan] at h
    exact ⟨h.2.symm, by simp, by simp [shiftSumB, h.1]⟩
  | cons x rest ih =>
    cases x with
    | Shift n =>
      simp only [skipScan] at h
      obtain ⟨h1, h2, h3⟩ := ih (q + n) h
      refine ⟨h1, ?_, ?_⟩
      · intro y hy
        rcases List.mem_cons.mp hy with rfl | hy
        · rfl
        · exact h2 y hy
      · simp [shiftSumB, h3]
        ring_nf
    | Inc n => simp [skipScan] at h
    | Output => simp [skipScan] at h
    | Input => simp [skipScan] at h
    | Reset => simp [skipScan] at h
    | Mul o w => simp [skipScan] at h
    | Seek n => simp [skipScan] at h
    | Skip a v d => simp [skipScan] at h
    | Block b f => simp [skipScan] at h

theorem skipScan_none_some (l : List BaseInst) (q p : Int) (v : Nat) (d : Int)
    (h : skipScan l q none = some (p, some (v, d))) :
    ∃ pre post, l = pre ++ .Inc v :: post ∧ (∀ x ∈ pre, isShiftNode x = true) ∧
      (∀ x ∈ post, isShiftNode x = true) ∧ d = q + shiftSumB pre ∧
      p = q + shiftSumB pre + shiftSumB post := by
  induction l generalizing q with
  | nil => simp [skipScan] at h
  | cons x rest ih =>
    cases x with
    | Shift n =>
      simp only [skipScan] at h
      obtain ⟨pre, post, hsplit, hpre, hpost, hd, hp⟩ := ih (q + n) h
      refine ⟨.Shift n :: pre, post, by simp [hsplit], ?_, hpost, ?_, ?_⟩
      · intro y hy
        rcases List.mem_cons.mp hy with rfl | hy
        · rfl
        · exact hpre y hy
      · simp [shiftSumB, hd]; ring_nf
      · simp [shiftSumB, hp]; ring_nf
    | Inc n =>
      simp only [skipScan] at h
      obtain ⟨h1, h2, h3⟩ := skipScan_det_some rest q p (n, q) (some (v, d)) h
      have hv : v = n ∧ d = q := by
        have := h1.symm
        simp at this
        exact ⟨this.1.symm, this.2.symm⟩
      refine ⟨[], rest, by simp [hv.1], by simp, h2, by simp [shiftSumB, hv.2], ?_⟩
      simp [shiftSumB, h3]
    | Output => simp [skipScan] at h
    | Input => simp [skipScan] at h
    | Reset => simp [skipScan] at h
    | Mul o w => simp [skipScan] at h
    | Seek n => simp [skipScan] at h
    | Skip a vv dd => simp [skipScan] at h
    | Block b f => simp [skipScan] at h

/-- C4 amended: fold_skip_loops rewrites a block to Skip(p, v, d) if and
only if its recursively folded body consists of Shift nodes and EXACTLY
one Inc(v) (a body with no Inc is left unchanged, contrary to the claim),
where p is the total displacement and d the offset at the Inc, and d lies
in the half-open range -32768 <= d < 32767 (32767 itself is excluded by
the source, contrary to the claim). -/
theorem c4_amended_skip_fold (b : List BaseInst) (flag : Bool) (rest : List BaseInst) :
    (∀ pre (v : Nat) post, fold_skip_loops b = pre ++ .Inc v :: post →
      (∀ x ∈ pre, isShiftNode x = true) → (∀ x ∈ post, isShiftNode x = true) →
      -32768 ≤ shiftSumB pre → shiftSumB pre < 32767 →
      fold_skip_loops (.Block b flag :: rest) =
        .Skip (shiftSumB pre + shiftSumB post) v (shiftSumB pre) :: fold_skip_loops rest) ∧
    ((¬ ∃ pre, ∃ v : Nat, ∃ post, fold_skip_loops b = pre ++ .Inc v :: post ∧
        (∀ x ∈ pre, isShiftNode x = true) ∧ (∀ x ∈ post, isShiftNode x = true) ∧
        -32768 ≤ shiftSumB pre ∧ shiftSumB pre < 32767) →
      fold_skip_loops (.Block b flag :: rest) =
        .Block (fold_skip_loops b) flag :: fold_skip_loops rest) := by
  constructor
  · intro pre v post hsplit hpre hpost hlo hhi
    have hscan : skipScan (fold_skip_loops b) 0 none =
        some (shiftSumB pre + shiftSumB post, some (v, shiftSumB pre)) := by
      rw [hsplit, skipScan_shift_seg pre _ 0 none hpre]
      simp only [skipScan]
      rw [skipScan_allShift post _ _ hpost]
      simp
    rw [fold_skip_loops, hscan]
    simp [hlo, hhi]
  · intro hno
    rw [fold_skip_loops]
    cases hscan : skipScan (fold_skip_loops b) 0 none with
    | none => simp
    | some pd =>
      obtain ⟨p, det⟩ := pd
      cases det with
      | none => simp
      | some vd =>
        obtain ⟨v, d⟩ := vd
        by_cases hb : -32768 ≤ d ∧ d < 32767
        · exfalso
          obtain ⟨pre, post, hsplit, hpre, hpost, hd, hp⟩ :=
            skipScan_none_some _ 0 p v d hscan
          exact hno ⟨pre, v, post, hsplit, hpre, hpost, by omega, by omega⟩
        · simp [hb]

/-! # Claim C2: bracket balance decides the success of compile -/

/-- Count of a character in a string fragment. -/
def countCh (c : Char) : List Char → Nat
  | [] => 0
  | x :: rest => (if x = c then 1 else 0) + countCh c rest

theorem scan_ok_iff (cs : List Char) : ∀ d : Nat, scanCs cs d = .ok () ↔
    ((∀ p, p <+: cs → countCh ']' p ≤ d + countCh '[' p) ∧
      d + countCh '[' cs = countCh ']' cs) := by
  induction cs with
  | nil =>
    intro d
    constructor
    · intro h
      have hd : d = 0 := by
        by_contra hne
        simp [scanCs, hne] at h
      subst hd
      refine ⟨?_, by simp [countCh]⟩
      intro p hp
      have hp0 : p = [] := List.prefix_nil.mp hp
      subst hp0
      simp [countCh]
    · rintro ⟨h1, h2⟩
      have hd : d = 0 := by simpa [countCh] using h2
      simp [scanCs, hd]
  | cons c cs ih =>
    intro d
    by_cases hc1 : c = '['
    · subst hc1
      have hl : scanCs ('[' :: cs) d = scanCs cs (d + 1) := by simp [scanCs]
      rw [hl, ih (d + 1)]
      constructor
      · rintro ⟨h1, h2⟩
        constructor
        · intro p hp
          match p, hp with
          | [], _ => simp [countCh]
          | x :: q, hp =>
            obtain ⟨hx, hq⟩ := List.cons_prefix_cons.mp hp
            subst hx
            have := h1 q hq
            simp [countCh]
            omega
        · simp [countCh]
          omega
      · rintro ⟨h1, h2⟩
        constructor
        · intro q hq
          have := h1 ('[' :: q) (List.cons_prefix_cons.mpr ⟨rfl, hq⟩)
          simp [countCh] at this
          omega
        · simp [countCh] at h2
          omega
    · by_cases hc2 : c = ']'
      · subst hc2
        cases d with
        | zero =>
          have hl : scanCs (']' :: cs) 0 = .error "Unmatched ]" := by simp [scanCs]
          rw [hl]
          constructor
          · intro h
            exact absurd h (by simp)
          · rintro ⟨h1, h2⟩
            have := h1 [']'] (List.cons_prefix_cons.mpr ⟨rfl, List.nil_prefix⟩)
            simp [countCh] at this
        | succ d =>
          have hl : scanCs (']' :: cs) (d + 1) = scanCs cs d := by simp [scanCs]
          rw [hl, ih d]
          constructor
          · rintro ⟨h1, h2⟩
            constructor
            · intro p hp
              match p, hp with
              | [], _ => simp [countCh]
              | x :: q, hp =>
                obtain ⟨hx, hq⟩ := List.cons_prefix_cons.mp hp
                subst hx
                have := h1 q hq
                simp [countCh]
                omega
            · simp [countCh]
              omega
          · rintro ⟨h1, h2⟩
            constructor
            · intro q hq
              have := h1 (']' :: q) (List.cons_prefix_cons.mpr ⟨rfl, hq⟩)
              simp [countCh] at this
              omega
            · simp [countCh] at h2
              omega
      · have hl : scanCs (c :: cs) d = scanCs cs d := by simp [scanCs, hc1, hc2]
        rw [hl, ih d]
        constructor
        · rintro ⟨h1, h2⟩
          constructor
          · intro p hp
            match p, hp with
            | [], _ => simp [countCh]
            | x :: q, hp =>
              obtain ⟨hx, hq⟩ := List.cons_prefix_cons.mp hp
              subst hx
              have := h1 q hq
              simp [countCh, hc1, hc2]
              omega
          · simp [countCh, hc1, hc2]
            omega
        · rintro ⟨h1, h2⟩
          constructor
          · intro q hq
            have := h1 (c :: q) (List.cons_prefix_cons.mpr ⟨rfl, hq⟩)
            simp [countCh, hc1, hc2] at this
            omega
          · simp [countCh, hc1, hc2] at h2
            omega

theorem scan_errC_iff (cs : List Char) : ∀ d : Nat,
    scanCs cs d = .error "Unmatched ]" ↔
      ∃ p, p <+: cs ∧ d + countCh '[' p < countCh ']' p := by
  induction cs with
  | nil =>
    intro d
    constructor
    · intro h
      by_cases hd : d = 0 <;> simp [scanCs, hd] at h
    · rintro ⟨p, hp, hlt⟩
      have hp0 : p = [] := List.prefix_nil.mp hp
      subst hp0
      simp [countCh] at hlt
  | cons c cs ih =>
    intro d
    by_cases hc1 : c = '['
    · subst hc1
      have hl : scanCs ('[' :: cs) d = scanCs cs (d + 1) := by simp [scanCs]
      rw [hl, ih (d + 1)]
      constructor
      · rintro ⟨q, hq, hlt⟩
        refine ⟨'[' :: q, List.cons_prefix_cons.mpr ⟨rfl, hq⟩, ?_⟩
        simp [countCh]
        omega
      · rintro ⟨p, hp, hlt⟩
        match p, hp with
        | [], _ =>
          simp [countCh] at hlt
        | x :: q, hp =>
          obtain ⟨hx, hq⟩ := List.cons_prefix_cons.mp hp
          subst hx
          refine ⟨q, hq, ?_⟩
          simp [countCh] at hlt
          omega
    · by_cases hc2 : c = ']'
      · subst hc2
        cases d with
        | zero =>
          have hl : scanCs (']' :: cs) 0 = .error "Unmatched ]" := by simp [scanCs]
          rw [hl]
          simp only [true_iff]
          refine ⟨[']'], List.cons_prefix_cons.mpr ⟨rfl, List.nil_prefix⟩, ?_⟩
          simp [countCh]
        | succ d =>
          have hl : scanCs (']' :: cs) (d + 1) = scanCs cs d := by simp [scanCs]
          rw [hl, ih d]
          constructor
          · rintro ⟨q, hq, hlt⟩
            refine ⟨']' :: q, List.cons_prefix_cons.mpr ⟨rfl, hq⟩, ?_⟩
            simp [countCh]
            omega
          · rintro ⟨p, hp, hlt⟩
            match p, hp with
            | [], _ =>
              simp [countCh] at hlt
            | x :: q, hp =>
              obtain ⟨hx, hq⟩ := List.cons_prefix_cons.mp hp
              subst hx
              refine ⟨q, hq, ?_⟩
              simp [countCh] at hlt
              omega
      · have hl : scanCs (c :: cs) d = scanCs cs d := by simp [scanCs, hc1, hc2]
        rw [hl, ih d]
        constructor
        · rintro ⟨q, hq, hlt⟩
          refine ⟨c :: q, List.cons_prefix_cons.mpr ⟨rfl, hq⟩, ?_⟩
          simp [countCh, hc1, hc2]
          omega
        · rintro ⟨p, hp, hlt⟩
          match p, hp with
          | [], _ =>
            simp [countCh] at hlt
          | x :: q, hp =>
            obtain ⟨hx, hq⟩ := List.cons_prefix_cons.mp hp
            subst hx
            refine ⟨q, hq, ?_⟩
            simp [countCh, hc1, hc2] at hlt
            omega

theorem scan_total (cs : List Char) : ∀ d : Nat,
    scanCs cs d = .ok () ∨ scanCs cs d = .error "Unmatched ]" ∨
      scanCs cs d = .error "Unmatched [" := by
  induction cs with
  | nil =>
    intro d
    by_cases hd : d = 0 <;> simp [scanCs, hd]
  | cons c cs ih =>
    intro d
    by_cases hc1 : c = '['
    · subst hc1
      simpa [scanCs] using ih (d + 1)
    · by_cases hc2 : c = ']'
      · subst hc2
        cases d with
        | zero => simp [scanCs]
        | succ d => simpa [scanCs] using ih d
      · simpa [scanCs, hc1, hc2] using ih d

/-- Shape correspondence between the recursive parser and the bracket
scan: parsing one nested level relates scan depth k+1 before to depth k
after the consumed segment, and a top-level parse succeeds or fails with
exactly the outcome of the scan at depth 0. -/
theorem parseB_scan (cs : List Char) (inBlock : Bool) :
    (inBlock = true →
      (∀ p d s r (hr : r.length ≤ cs.length),
        parseB cs true = .ok (p, d, s, ⟨r, hr⟩) →
        ∀ k, scanCs cs (k + 1) = scanCs r k) ∧
      (∀ e, parseB cs true = .error e → ∀ k, scanCs cs (k + 1) = .error e)) ∧
    (inBlock = false →
      (∀ p d s r (hr : r.length ≤ cs.length),
        parseB cs false = .ok (p, d, s, ⟨r, hr⟩) → scanCs cs 0 = .ok ()) ∧
      (∀ e, parseB cs false = .error e → scanCs cs 0 = .error e)) := by
  induction cs, inBlock using parseB.induct with
  | case1 =>
    refine ⟨fun _ => ⟨?_, ?_⟩, fun h => by simp at h⟩
    · intro p d s r hr heq
      simp [parseB] at heq
    · intro e heq k
      simp [parseB] at heq
      simp [scanCs, ← heq]
  | case2 =>
    refine ⟨fun h => by simp at h, fun _ => ⟨?_, ?_⟩⟩
    · intro p d s r hr heq
      simp [scanCs]
    · intro e heq
      simp [parseB] at heq
  | case3 cs inBlock e₁ herr ih =>
    refine ⟨fun _ => ⟨?_, ?_⟩, fun _ => ⟨?_, ?_⟩⟩
    · intro p d s r hr heq
      simp [parseB, herr] at heq
    · intro e heq k
      simp [parseB, herr] at heq
      subst heq
      have h1 := (ih.1 rfl).2 e₁ herr (k + 1)
      simpa [scanCs] using h1
    · intro p d s r hr heq
      simp [parseB, herr] at heq
    · intro e heq
      simp [parseB, herr] at heq
      subst heq
      have h1 := (ih.1 rfl).2 e₁ herr 0
      simpa [scanCs] using h1
  | case4 cs inBlock b db sb rb hlb hok e₁ herr ih1 ih2 =>
    have hstep : ∀ k, scanCs ('[' :: cs) (k + 1) = scanCs rb (k + 1) := by
      intro k
      have h1 := (ih1.1 rfl).1 b db sb rb hlb hok (k + 1)
      simpa [scanCs] using h1
    have hstep0 : scanCs ('[' :: cs) 0 = scanCs rb 0 := by
      have h1 := (ih1.1 rfl).1 b db sb rb hlb hok 0
      simpa [scanCs] using h1
    refine ⟨fun hb => ⟨?_, ?_⟩, fun hb => ⟨?_, ?_⟩⟩
    · intro p d s r hr heq
      subst hb
      simp [parseB, hok, herr] at heq
    · intro e heq k
      subst hb
      simp [parseB, hok, herr] at heq
      subst heq
      rw [hstep k]
      exact (ih2.1 rfl).2 e₁ herr k
    · intro p d s r hr heq
      subst hb
      simp [parseB, hok, herr] at heq
    · intro e heq
      subst hb
      simp [parseB, hok, herr] at heq
      subst heq
      rw [hstep0]
      exact (ih2.2 rfl).2 e₁ herr
  | case5 cs inBlock b db sb rb hlb hok p2 d2 s2 r2 hl2 hok2 ih1 ih2 =>
    have hstep : ∀ k, scanCs ('[' :: cs) (k + 1) = scanCs rb (k + 1) := by
      intro k
      have h1 := (ih1.1 rfl).1 b db sb rb hlb hok (k + 1)
      simpa [scanCs] using h1
    have hstep0 : scanCs ('[' :: cs) 0 = scanCs rb 0 := by
      have h1 := (ih1.1 rfl).1 b db sb rb hlb hok 0
      simpa [scanCs] using h1
    refine ⟨fun hb => ⟨?_, ?_⟩, fun hb => ⟨?_, ?_⟩⟩
    · intro p d s r hr heq
      subst hb
      simp [parseB, hok, hok2] at heq
      obtain ⟨h1, h2, h3, h4⟩ := heq
      subst h4
      intro k
      rw [hstep k]
      exact (ih2.1 rfl).1 p2 d2 s2 r2 hl2 hok2 k
    · intro e heq k
      subst hb
      simp [parseB, hok, hok2] at heq
    · intro p d s r hr heq
      subst hb
      rw [hstep0]
      exact (ih2.2 rfl).1 p2 d2 s2 r2 hl2 hok2
    · intro e heq
      subst hb
      simp [parseB, hok, hok2] at heq
  | case6 cs hne =>
    refine ⟨fun _ => ⟨?_, ?_⟩, fun h => by simp at h⟩
    · intro p d s r hr heq
      simp [parseB] at heq
      obtain ⟨h1, h2, h3, h4⟩ := heq
      subst h4
      intro k
      simp [scanCs]
    · intro e heq
      simp [parseB] at heq
  | case7 cs inBlock hnb hne =>
    rw [Bool.not_eq_true] at hnb
    subst hnb
    refine ⟨fun h => by simp at h, fun _ => ⟨?_, ?_⟩⟩
    · intro p d s r hr heq
      simp [parseB] at heq
    · intro e heq
      simp [parseB] at heq
      subst heq
      simp [scanCs]
  | case8 c cs inBlock hne1 hne2 e₁ herr ih =>
    have hs : ∀ m, scanCs (c :: cs) m = scanCs cs m := by
      intro m
      simp [scanCs, hne1, hne2]
    refine ⟨fun hb => ⟨?_, ?_⟩, fun hb => ⟨?_, ?_⟩⟩
    · intro p d s r hr heq
      subst hb
      simp [parseB, hne1, hne2, herr] at heq
    · intro e heq k
      subst hb
      simp [parseB, hne1, hne2, herr] at heq
      subst heq
      rw [hs (k + 1)]
      exact (ih.1 rfl).2 e₁ herr k
    · intro p d s r hr heq
      subst hb
      simp [parseB, hne1, hne2, herr] at heq
    · intro e heq
      subst hb
      simp [parseB, hne1, hne2, herr] at heq
      subst heq
      rw [hs 0]
      exact (ih.2 rfl).2 e₁ herr
  | case9 cs inBlock p d s r hlen hok hne1 hne2 ih =>
    have hs : ∀ m, scanCs ('+' :: cs) m = scanCs cs m := by
      intro m
      simp [scanCs]
    refine ⟨fun hb => ⟨?_, ?_⟩, fun hb => ⟨?_, ?_⟩⟩
    · intro p₀ d₀ s₀ r₀ hr₀ heq
      subst hb
      simp [parseB, hok] at heq
      obtain ⟨h1, h2, h3, h4⟩ := heq
      subst h4
      intro k
      rw [hs (k + 1)]
      exact (ih.1 rfl).1 p d s r hlen hok k
    · intro e heq k
      subst hb
      simp [parseB, hok] at heq
    · intro p₀ d₀ s₀ r₀ hr₀ heq
      subst hb
      rw [hs 0]
      exact (ih.2 rfl).1 p d s r hlen hok
    · intro e heq
      subst hb
      simp [parseB, hok] at heq
  | case10 cs inBlock p d s r hlen hok hne1 hne2 hne3 ih =>
    have hs : ∀ m, scanCs ('-' :: cs) m = scanCs cs m := by
      intro m
      simp [scanCs]
    refine ⟨fun hb => ⟨?_, ?_⟩, fun hb => ⟨?_, ?_⟩⟩
    · intro p₀ d₀ s₀ r₀ hr₀ heq
      subst hb
      simp [parseB, hok] at heq
      obtain ⟨h1, h2, h3, h4⟩ := heq
      subst h4
      intro k
      rw [hs (k + 1)]
      exact (ih.1 rfl).1 p d s r hlen hok k
    · intro e heq k
      subst hb
      simp [parseB, hok] at heq
    · intro p₀ d₀ s₀ r₀ hr₀ heq
      subst hb
      rw [hs 0]
      exact (ih.2 rfl).1 p d s r hlen hok
    · intro e heq
      subst hb
      simp [parseB, hok] at heq
  | case11 cs inBlock p d s r hlen hok hne1 hne2 hne3 hne4 ih =>
    have hs : ∀ m, scanCs ('>' :: cs) m = scanCs cs m := by
      intro m
      simp [scanCs]
    refine ⟨fun hb => ⟨?_, ?_⟩, fun hb => ⟨?_, ?_⟩⟩
    · intro p₀ d₀ s₀ r₀ hr₀ heq
      subst hb
      simp [parseB, hok] at heq
      obtain ⟨h1, h2, h3, h4⟩ := heq
      subst h4
      intro k
      rw [hs (k + 1)]
      exact (ih.1 rfl).1 p d s r hlen hok k
    · intro e heq k
      subst hb
      simp [parseB, hok] at heq
    · intro p₀ d₀ s₀ r₀ hr₀ heq
      subst hb
      rw [hs 0]
      exact (ih.2 rfl).1 p d s r hlen hok
    · intro e heq
      subst hb
      simp [parseB, hok] at heq
  | case12 cs inBlock p d s r hlen hok hne1 hne2 hne3 hne4 hne5 ih =>
    have hs : ∀ m, scanCs ('<' :: cs) m = scanCs cs m := by
      intro m
      simp [scanCs]
    refine ⟨fun hb => ⟨?_, ?_⟩, fun hb => ⟨?_, ?_⟩⟩
    · intro p₀ d₀ s₀ r₀ hr₀ heq
      subst hb
      simp [parseB, hok] at heq
      obtain ⟨h1, h2, h3, h4⟩ := heq
      subst h4
      intro k
      rw [hs (k + 1)]
      exact (ih.1 rfl).1 p d s r hlen hok k
    · intro e heq k
      subst hb
      simp [parseB, hok] at heq
    · intro p₀ d₀ s₀ r₀ hr₀ heq
      subst hb
      rw [hs 0]
      exact (ih.2 rfl).1 p d s r hlen hok
    · intro e heq
      subst hb
      simp [parseB, hok] at heq
  | case13 cs inBlock p d s r hlen hok hne1 hne2 hne3 hne4 hne5 hne6 ih =>
    have hs : ∀ m, scanCs ('.' :: cs) m = scanCs cs m := by
      intro m
      simp [scanCs]
    refine ⟨fun hb => ⟨?_, ?_⟩, fun hb => ⟨?_, ?_⟩⟩
    · intro p₀ d₀ s₀ r₀ hr₀ heq
      subst hb
      simp [parseB, hok] at heq
      obtain ⟨h1, h2, h3, h4⟩ := heq
      subst h4
      intro k
      rw [hs (k + 1)]
      exact (ih.1 rfl).1 p d s r hlen hok k
    · intro e heq k
      subst hb
      simp [parseB, hok] at heq
    · intro p₀ d₀ s₀ r₀ hr₀ heq
      subst hb
      rw [hs 0]
      exact (ih.2 rfl).1 p d s r hlen hok
    · intro e heq
      subst hb
      simp [parseB, hok] at heq
  | case14 cs inBlock p d s r hlen hok hne1 hne2 hne3 hne4 hne5 hne6 hne7 ih =>
    have hs : ∀ m, scanCs (',' :: cs) m = scanCs cs m := by
      intro m
      simp [scanCs]
    refine ⟨fun hb => ⟨?_, ?_⟩, fun hb => ⟨?_, ?_⟩⟩
    · intro p₀ d₀ s₀ r₀ hr₀ heq
      subst hb
      simp [parseB, hok] at heq
      obtain ⟨h1, h2, h3, h4⟩ := heq
      subst h4
      intro k
      rw [hs (k + 1)]
      exact (ih.1 rfl).1 p d s r hlen hok k
    · intro e heq k
      subst hb
      simp [parseB, hok] at heq
    · intro p₀ d₀ s₀ r₀ hr₀ heq
      subst hb
      rw [hs 0]
      exact (ih.2 rfl).1 p d s r hlen hok
    · intro e heq
      subst hb
      simp [parseB, hok] at heq
  | case15 c cs inBlock hne1 hne2 p d s r hlen hok hne3 hne4 hne5 hne6 hne7 hne8 ih =>
    have hs : ∀ m, scanCs (c :: cs) m = scanCs cs m := by
      intro m
      simp [scanCs, hne1, hne2]
    refine ⟨fun hb => ⟨?_, ?_⟩, fun hb => ⟨?_, ?_⟩⟩
    · intro p₀ d₀ s₀ r₀ hr₀ heq
      subst hb
      simp [parseB, hok, hne1, hne2, hne3, hne4, hne5, hne6, hne7, hne8] at heq
      obtain ⟨h1, h2, h3, h4⟩ := heq
      subst h4
      intro k
      rw [hs (k + 1)]
      exact (ih.1 rfl).1 p d s r hlen hok k
    · intro e heq k
      subst hb
      simp [parseB, hok, hne1, hne2, hne3, hne4, hne5, hne6, hne7, hne8] at heq
    · intro p₀ d₀ s₀ r₀ hr₀ heq
      subst hb
      rw [hs 0]
      exact (ih.2 rfl).1 p d s r hlen hok
    · intro e heq
      subst hb
      simp [parseB, hok, hne1, hne2, hne3, hne4, hne5, hne6, hne7, hne8] at heq

theorem parse_scan (cs : List Char) :
    (∀ prog, parse cs = .ok prog → scanCs cs 0 = .ok ()) ∧
    (∀ e, parse cs = .error e → scanCs cs 0 = .error e) := by
  constructor
  · intro prog h
    unfold parse at h
    cases hp : parseB cs false with
    | error e => rw [hp] at h; exact absurd h (by simp)
    | ok x =>
      obtain ⟨p, d, s, ⟨r, hr⟩⟩ := x
      exact ((parseB_scan cs false).2 rfl).1 p d s r hr hp
  · intro e h
    unfold parse at h
    cases hp : parseB cs false with
    | error e₁ =>
      rw [hp] at h
      simp at h
      subst h
      exact ((parseB_scan cs false).2 rfl).2 e₁ hp
    | ok x => rw [hp] at h; exact absurd h (by simp)

theorem compile_cases (cs : List Char) :
    (∀ e, compile cs = .error e ↔ parse cs = .error e) ∧
    ((compile cs).isOk = true ↔ ∃ prog, parse cs = .ok prog) := by
  cases hp : parse cs with
  | error e₁ => simp [compile, hp, Except.isOk, Except.toBool]
  | ok prog => simp [compile, hp, Except.isOk, Except.toBool]

theorem scan_repBrackets (k : Nat) : scanCs (repBrackets k) 0 = .ok () := by
  induction k with
  | zero => simp [repBrackets, scanCs]
  | succ k ih => simpa [repBrackets, scanCs] using ih

/-- C2: compile succeeds iff every prefix of the source has at least as
many opening as closing brackets and the totals agree on the full string;
when some prefix violates the inequality the reported error is the string
Unmatched ], and when the prefixes are fine but the totals differ it is
Unmatched [.  In particular compile of a lone opening or closing bracket
fails with the respective message and compile of k repetitions of a
bracket pair succeeds for every k. -/
theorem c2_bracket_balance (cs : List Char) :
    ((compile cs).isOk = true ↔
      ((∀ p, p <+: cs → countCh ']' p ≤ countCh '[' p) ∧
        countCh '[' cs = countCh ']' cs)) ∧
    ((∃ p, p <+: cs ∧ countCh '[' p < countCh ']' p) →
      compile cs = .error "Unmatched ]") ∧
    ((∀ p, p <+: cs → countCh ']' p ≤ countCh '[' p) →
      countCh '[' cs ≠ countCh ']' cs → compile cs = .error "Unmatched [") ∧
    (∀ k, (compile (repBrackets k)).isOk = true) ∧
    compile ['['] = .error "Unmatched [" ∧
    compile [']'] = .error "Unmatched ]" := by
  have hokiff : ∀ ds : List Char, (compile ds).isOk = true ↔ scanCs ds 0 = .ok () := by
    intro ds
    constructor
    · intro h
      obtain ⟨prog, hp⟩ := (compile_cases ds).2.mp h
      exact (parse_scan ds).1 prog hp
    · intro h
      cases hq : parse ds with
      | error e₁ =>
        have := (parse_scan ds).2 e₁ hq
        rw [this] at h
        exact absurd h (by simp)
      | ok prog => exact (compile_cases ds).2.mpr ⟨prog, hq⟩
  refine ⟨?_, ?_, ?_, ?_, ?_, ?_⟩
  · rw [hokiff cs, scan_ok_iff cs 0]
    constructor
    · rintro ⟨h1, h2⟩
      exact ⟨fun p hp => by simpa using h1 p hp, by simpa using h2⟩
    · rintro ⟨h1, h2⟩
      exact ⟨fun p hp => by simpa using h1 p hp, by simpa using h2⟩
  · intro hvio
    have hscan : scanCs cs 0 = .error "Unmatched ]" := by
      rw [scan_errC_iff cs 0]
      obtain ⟨p, hp, hlt⟩ := hvio
      exact ⟨p, hp, by simpa using hlt⟩
    cases hq : parse cs with
    | error e₁ =>
      have := (parse_scan cs).2 e₁ hq
      rw [this] at hscan
      simp at hscan
      subst hscan
      exact ((compile_cases cs).1 _).mpr hq
    | ok prog =>
      have := (parse_scan cs).1 prog hq
      rw [this] at hscan
      exact absurd hscan (by simp)
  · intro hle hne
    have hnok : scanCs cs 0 ≠ .ok () := by
      intro h
      obtain ⟨h1, h2⟩ := (scan_ok_iff cs 0).mp h
      exact hne (by simpa using h2)
    have hnerr : scanCs cs 0 ≠ .error "Unmatched ]" := by
      intro h
      obtain ⟨p, hp, hlt⟩ := (scan_errC_iff cs 0).mp h
      have := hle p hp
      omega
    have hscan : scanCs cs 0 = .error "Unmatched [" := by
      rcases scan_total cs 0 with h | h | h
      · exact absurd h hnok
      · exact absurd h hnerr
      · exact h
    cases hq : parse cs with
    | error e₁ =>
      have := (parse_scan cs).2 e₁ hq
      rw [this] at hscan
      simp at hscan
      subst hscan
      exact ((compile_cases cs).1 _).mpr hq
    | ok prog =>
      have := (parse_scan cs).1 prog hq
      rw [this] at hscan
      exact absurd hscan (by simp)
  · intro k
    rw [hokiff (repBrackets k)]
    exact scan_repBrackets k
  · have : parse ['['] = .error "Unmatched [" := by simp [parse, parseB]
    exact ((compile_cases ['[']).1 "Unmatched [").mpr this
  · have : parse [']'] = .error "Unmatched ]" := by simp [parse, parseB]
    exact ((compile_cases [']']).1 "Unmatched ]").mpr this

theorem c2_witness : compile [']'] = Except.error "Unmatched ]" :=
  (c2_bracket_balance [']']).2.1
    ⟨[']'], List.prefix_refl [']'], by simp [countCh]⟩

/-! # Claim C8: the stability flag stored by the parser -/

theorem parseB_flags (cs : List Char) (inBlock : Bool) :
    ∀ pr dd ss rr (hh : rr.length ≤ cs.length),
      parseB cs inBlock = .ok (pr, dd, ss, ⟨rr, hh⟩) →
      flagsOk pr = true ∧ dd = shiftSumB pr ∧ ss = nestedFlags pr := by
  induction cs, inBlock using parseB.induct with
  | case1 =>
    intro pr dd ss rr hh heq
    simp [parseB] at heq
  | case2 =>
    intro pr dd ss rr hh heq
    simp [parseB] at heq
    obtain ⟨h1, h2, h3, h4⟩ := heq
    subst h1; subst h2; subst h3
    simp [flagsOk, shiftSumB, nestedFlags]
  | case3 cs inBlock e herr ih =>
    intro pr dd ss rr hh heq
    simp [parseB, herr] at heq
  | case4 cs inBlock b db sb rb hlen hok e herr ih1 ih2 =>
    intro pr dd ss rr hh heq
    simp [parseB, hok, herr] at heq
  | case5 cs inBlock b db sb rb hlen hok p2 d2 s2 r2 hlen2 hok2 ih1 ih2 =>
    intro pr dd ss rr hh heq
    simp [parseB, hok, hok2] at heq
    obtain ⟨h1, h2, h3, h4⟩ := heq
    obtain ⟨f1, f2, f3⟩ := ih1 b db sb rb hlen hok
    obtain ⟨g1, g2, g3⟩ := ih2 p2 d2 s2 r2 hlen2 hok2
    subst h1; subst h2; subst h3
    refine ⟨?_, ?_, ?_⟩
    · simp [flagsOk, f1, g1, f2, f3]
    · simp [shiftSumB, g2]
    · simp [nestedFlags, g3, Bool.and_comm]
  | case6 cs hne =>
    intro pr dd ss rr hh heq
    simp [parseB] at heq
    obtain ⟨h1, h2, h3, h4⟩ := heq
    subst h1; subst h2; subst h3
    simp [flagsOk, shiftSumB, nestedFlags]
  | case7 cs inBlock hnb hne =>
    intro pr dd ss rr hh heq
    rw [Bool.not_eq_true] at hnb
    simp [parseB, hnb] at heq
  | case8 c cs inBlock hne1 hne2 e herr ih =>
    intro pr dd ss rr hh heq
    simp [parseB, hne1, hne2, herr] at heq
  | case9 cs inBlock p d s r hlen hok hne1 hne2 ih =>
    intro pr dd ss rr hh heq
    simp [parseB, hok] at heq
    obtain ⟨h1, h2, h3, h4⟩ := heq
    obtain ⟨f1, f2, f3⟩ := ih p d s r hlen hok
    subst h1; subst h2; subst h3
    simp [flagsOk, shiftSumB, nestedFlags, f1, f2, f3]
  | case10 cs inBlock p d s r hlen hok hne1 hne2 hne3 ih =>
    intro pr dd ss rr hh heq
    simp [parseB, hok] at heq
    obtain ⟨h1, h2, h3, h4⟩ := heq
    obtain ⟨f1, f2, f3⟩ := ih p d s r hlen hok
    subst h1; subst h2; subst h3
    simp [flagsOk, shiftSumB, nestedFlags, f1, f2, f3]
  | case11 cs inBlock p d s r hlen hok hne1 hne2 hne3 hne4 ih =>
    intro pr dd ss rr hh heq
    simp [parseB, hok] at heq
    obtain ⟨h1, h2, h3, h4⟩ := heq
    obtain ⟨f1, f2, f3⟩ := ih p d s r hlen hok
    subst h1; subst h3
    refine ⟨by simp [flagsOk, f1], ?_, by simp [nestedFlags, f3]⟩
    simp [shiftSumB, ← f2]
    omega
  | case12 cs inBlock p d s r hlen hok hne1 hne2 hne3 hne4 hne5 ih =>
    intro pr dd ss rr hh heq
    simp [parseB, hok] at heq
    obtain ⟨h1, h2, h3, h4⟩ := heq
    obtain ⟨f1, f2, f3⟩ := ih p d s r hlen hok
    subst h1; subst h3
    refine ⟨by simp [flagsOk, f1], ?_, by simp [nestedFlags, f3]⟩
    simp [shiftSumB, ← f2]
    omega
  | case13 cs inBlock p d s r hlen hok hne1 hne2 hne3 hne4 hne5 hne6 ih =>
    intro pr dd ss rr hh heq
    simp [parseB, hok] at heq
    obtain ⟨h1, h2, h3, h4⟩ := heq
    obtain ⟨f1, f2, f3⟩ := ih p d s r hlen hok
    subst h1; subst h2; subst h3
    simp [flagsOk, shiftSumB, nestedFlags, f1, f2, f3]
  | case14 cs inBlock p d s r hlen hok hne1 hne2 hne3 hne4 hne5 hne6 hne7 ih =>
    intro pr dd ss rr hh heq
    simp [parseB, hok] at heq
    obtain ⟨h1, h2, h3, h4⟩ := heq
    obtain ⟨f1, f2, f3⟩ := ih p d s r hlen hok
    subst h1; subst h2; subst h3
    simp [flagsOk, shiftSumB, nestedFlags, f1, f2, f3]
  | case15 c cs inBlock hne1 hne2 p d s r hlen hok hne3 hne4 hne5 hne6 hne7 hne8 ih =>
    intro pr dd ss rr hh heq
    simp [parseB, hok, hne1, hne2, hne3, hne4, hne5, hne6, hne7, hne8] at heq
    obtain ⟨h1, h2, h3, h4⟩ := heq
    obtain ⟨f1, f2, f3⟩ := ih p d s r hlen hok
    subst h1; subst h2; subst h3
    exact ⟨f1, f2, f3⟩

/-- C8: for every block node in the tree produced by parse, at any
nesting depth, the stored stable flag is true if and only if the sum of
the block's immediate Shift values is zero and every nested block's
stable flag is true (the flagsOk predicate checks exactly this equality
at every block node). -/
theorem c8_parser_stability_flags (cs : List Char) (prog : List BaseInst)
    (h : parse cs = .ok prog) : flagsOk prog = true := by
  unfold parse at h
  cases hp : parseB cs false with
  | error e => rw [hp] at h; exact absurd h (by simp)
  | ok x =>
    rw [hp] at h
    simp only [Except.ok.injEq] at h
    obtain ⟨pr, dd, ss, rr, hh⟩ := x
    have := parseB_flags cs false pr dd ss rr hh hp
    simp only at h
    rw [← h]
    exact this.1

theorem c8_witness : flagsOk [BaseInst.Block [.Inc 255, .Block [.Shift 1] false] false] = true :=
  c8_parser_stability_flags ['[', '-', '[', '>', ']', ']']
    [BaseInst.Block [.Inc 255, .Block [.Shift 1] false] false]
    (by simp [parse, parseB])

theorem c4_witness :
    fold_skip_loops [.Block [.Shift 2, .Inc 3] false] =
      .Skip (shiftSumB [BaseInst.Shift 2] + shiftSumB []) 3 (shiftSumB [BaseInst.Shift 2])
        :: fold_skip_loops [] :=
  (c4_amended_skip_fold [.Shift 2, .Inc 3] false []).1 [.Shift 2] 3 []
    (by simp [fold_skip_loops])
    (by simp [isShiftNode])
    (by simp)
    (by norm_num [shiftSumB])
    (by norm_num [shiftSumB])

/-! # Claim C9: flatten links every Open with its matching Close -/

theorem flattenBlock_dyck (l : List BaseInst) :
    Dyck ((flattenBlock l).map Inst.cmd) := by
  induction l using flattenBlock.induct
  all_goals simp only [flattenBlock, List.map_cons, List.map_nil, List.map_append]
  all_goals first
    | exact Dyck.nil
    | exact Dyck.pair (by assumption) (by assumption)
    | exact Dyck.other (by simp) (by simp) (by assumption)


theorem map_cmd_modifyArg (l : List Inst) (f : Inst → Inst)
    (hf : ∀ x, (f x).cmd = x.cmd) (i : Nat) :
    (l.modify f i).map Inst.cmd = l.map Inst.cmd := by
  apply List.ext_getElem?
  intro j
  rw [List.getElem?_map, List.getElem?_map, List.getElem?_modify]
  cases l[j]? with
  | none => rfl
  | some v =>
    simp only [Option.map_some, Option.map]
    split
    · rw [hf]
    · rfl

theorem getElem?_modify_ne (l : List Inst) (f : Inst → Inst) (i j : Nat)
    (h : i ≠ j) :
    (l.modify f i)[j]? = l[j]? := by
  rw [List.getElem?_modify]
  cases l[j]? with
  | none => rfl
  | some v => simp [h]

theorem getElem?_modify_self (l : List Inst) (f : Inst → Inst) (i : Nat) :
    (l.modify f i)[i]? = (l[i]?).map f := by
  rw [List.getElem?_modify]
  cases l[i]? with
  | none => rfl
  | some v => simp

theorem cmd_at_of_drop (cur : List Inst) (idx : Nat) (c : InstType)
    (R : List InstType) (h : (cur.map Inst.cmd).drop idx = c :: R) :
    ∃ v, cur[idx]? = some v ∧ v.cmd = c := by
  rw [← List.map_drop] at h
  obtain ⟨v, l₁, hd, hc, _⟩ := List.map_eq_cons_iff.mp h
  refine ⟨v, ?_, hc⟩
  have h0 := List.getElem?_drop cur idx 0
  rw [hd] at h0
  simpa using h0.symm

theorem drop_succ_of_drop (cur : List Inst) (idx : Nat) (c : InstType)
    (R : List InstType) (h : (cur.map Inst.cmd).drop idx = c :: R) :
    (cur.map Inst.cmd).drop (idx + 1) = R := by
  rw [← List.tail_drop, h]
  rfl

theorem linkStep_other (cur : List Inst) (st : List Nat) (idx : Nat) (v : Inst)
    (hv : cur[idx]? = some v) (ho : v.cmd ≠ .Open) (hc : v.cmd ≠ .Close) :
    linkStep (cur, st) idx = (cur, st) := by
  simp only [linkStep, hv]

theorem linkStep_openEq (cur : List Inst) (st : List Nat) (idx : Nat) (v : Inst)
    (hv : cur[idx]? = some v) (ho : v.cmd = .Open) :
    linkStep (cur, st) idx = (cur, idx :: st) := by
  simp only [linkStep, hv, ho]

theorem linkStep_closeEq (cur : List Inst) (o : Nat) (st : List Nat) (idx : Nat)
    (v : Inst) (hv : cur[idx]? = some v) (hc : v.cmd = .Close) :
    linkStep (cur, o :: st) idx =
      ((cur.modify (fun x => { x with arg := (idx : Int) }) o).modify
         (fun x => { x with arg := (o : Int) }) idx, st) := by
  simp only [linkStep, hv, hc]

theorem PairedIn_congr (cur cur₂ : List Inst) (lo hi : Nat)
    (h : ∀ j, lo ≤ j → j < hi → cur₂[j]? = cur[j]?) :
    PairedIn cur lo hi → PairedIn cur₂ lo hi := by
  intro hp i inst hlo hhi hget
  rw [h i hlo hhi] at hget
  obtain ⟨ho, hc⟩ := hp i inst hlo hhi hget
  refine ⟨fun hcmd => ?_, fun hcmd => ?_⟩
  · obtain ⟨j, instJ, h1, h2, h3, h4, h5, h6⟩ := ho hcmd
    exact ⟨j, instJ, h1, h2, h3, by rw [h j (by omega) h2]; exact h4, h5, h6⟩
  · obtain ⟨j, instJ, h1, h2, h3, h4, h5, h6⟩ := hc hcmd
    exact ⟨j, instJ, h1, h2, h3, by rw [h j h1 (by omega)]; exact h4, h5, h6⟩

theorem range1_split (s m n : Nat) :
    List.range' s (m + n) = List.range' s m ++ List.range' (s + m) n := by
  rw [Nat.add_comm m n, ← List.range'_append, one_mul]


theorem linkSeg {S : List InstType} (hS : Dyck S) :
    ∀ (cur : List Inst) (st : List Nat) (idx : Nat) (T : List InstType),
      (cur.map Inst.cmd).drop idx = S ++ T →
      (List.foldl linkStep (cur, st) (List.range' idx S.length)).2 = st ∧
      (List.foldl linkStep (cur, st) (List.range' idx S.length)).1.map Inst.cmd
        = cur.map Inst.cmd ∧
      (∀ j, j < idx ∨ idx + S.length ≤ j →
        (List.foldl linkStep (cur, st) (List.range' idx S.length)).1[j]? = cur[j]?) ∧
      PairedIn (List.foldl linkStep (cur, st) (List.range' idx S.length)).1
        idx (idx + S.length) := by
  induction hS with
  | nil =>
    intro cur st idx T hseg
    simp only [List.length_nil, List.range'_zero, List.foldl_nil]
    refine ⟨by simp, by simp, by simp, ?_⟩
    intro i inst h1 h2 hget
    exact absurd h2 (by omega)
  | @other c s hco hcc hs ih =>
    intro cur st idx T hseg
    simp only [List.cons_append] at hseg
    obtain ⟨v, hv, hvcmd⟩ := cmd_at_of_drop cur idx c (s ++ T) hseg
    have hseg1 : (cur.map Inst.cmd).drop (idx + 1) = s ++ T :=
      drop_succ_of_drop cur idx c (s ++ T) hseg
    have hstep : linkStep (cur, st) idx = (cur, st) :=
      linkStep_other cur st idx v hv (by rw [hvcmd]; exact hco)
        (by rw [hvcmd]; exact hcc)
    simp only [List.length_cons]
    rw [List.range'_succ, List.foldl_cons, hstep]
    obtain ⟨h1, h2, h3, h4⟩ := ih cur st (idx + 1) T hseg1
    refine ⟨h1, h2, fun j hj => h3 j (by omega), ?_⟩
    intro i inst hlo hhi hget
    by_cases hi : i = idx
    · subst hi
      have hres := h3 i (by omega)
      rw [hres, hv] at hget
      obtain rfl : v = inst := Option.some.inj hget
      refine ⟨fun hcmd => ?_, fun hcmd => ?_⟩
      · exact absurd (hvcmd ▸ hcmd) hco
      · exact absurd (hvcmd ▸ hcmd) hcc
    · obtain ⟨hO, hC⟩ := h4 i inst (by omega) (by omega) hget
      refine ⟨fun hcmd => ?_, fun hcmd => ?_⟩
      · obtain ⟨j, instJ, a1, a2, a3, a4, a5, a6⟩ := hO hcmd
        exact ⟨j, instJ, a1, by omega, a3, a4, a5, a6⟩
      · obtain ⟨j, instJ, a1, a2, a3, a4, a5, a6⟩ := hC hcmd
        exact ⟨j, instJ, by omega, a2, a3, a4, a5, a6⟩
  | @pair S₁ S₂ h₁ h₂ ih₁ ih₂ =>
    intro cur st idx T hseg
    simp only [List.cons_append, List.append_assoc] at hseg
    obtain ⟨vO, hvO, hvOcmd⟩ := cmd_at_of_drop cur idx .Open _ hseg
    have hseg1 : (cur.map Inst.cmd).drop (idx + 1)
        = S₁ ++ (InstType.Close :: (S₂ ++ T)) :=
      drop_succ_of_drop cur idx _ _ hseg
    have hdropC : (cur.map Inst.cmd).drop (idx + 1 + S₁.length)
        = InstType.Close :: (S₂ ++ T) := by
      have h2 : List.drop S₁.length ((cur.map Inst.cmd).drop (idx + 1))
          = InstType.Close :: (S₂ ++ T) := by
        rw [hseg1, List.drop_left]
      rw [List.drop_drop] at h2
      exact h2
    obtain ⟨vC, hvC, hvCcmd⟩ := cmd_at_of_drop cur (idx + 1 + S₁.length) .Close _ hdropC
    have hdropS2 : (cur.map Inst.cmd).drop (idx + 1 + S₁.length + 1) = S₂ ++ T :=
      drop_succ_of_drop cur _ _ _ hdropC
    simp only [List.length_cons, List.length_append]
    have hrange : List.range' idx (S₁.length + 1 + (S₂.length + 1))
        = [idx] ++ (List.range' (idx + 1) S₁.length
            ++ ([idx + 1 + S₁.length]
                ++ List.range' (idx + 1 + S₁.length + 1) S₂.length)) := by
      have e1 : S₁.length + 1 + (S₂.length + 1)
          = 1 + (S₁.length + (1 + S₂.length)) := by omega
      rw [e1, range1_split idx 1 (S₁.length + (1 + S₂.length)),
          range1_split (idx + 1) S₁.length (1 + S₂.length),
          range1_split (idx + 1 + S₁.length) 1 S₂.length,
          List.range'_one, List.range'_one]
    have hfold1 : List.foldl linkStep (cur, st) [idx] = (cur, idx :: st) := by
      simp only [List.foldl_cons, List.foldl_nil]
      exact linkStep_openEq cur st idx vO hvO hvOcmd
    rw [hrange, List.foldl_append, List.foldl_append, List.foldl_append, hfold1]
    obtain ⟨hst1, hcmd1, hout1, hpair1⟩ :=
      ih₁ cur (idx :: st) (idx + 1) (InstType.Close :: (S₂ ++ T)) hseg1
    generalize hg1 : List.foldl linkStep (cur, idx :: st)
        (List.range' (idx + 1) S₁.length) = P at hst1 hcmd1 hout1 hpair1 ⊢
    obtain ⟨cur₁, st₁⟩ := P
    obtain rfl : st₁ = idx :: st := hst1
    simp only at hcmd1 hout1 hpair1
    have hvC1 : cur₁[idx + 1 + S₁.length]? = some vC := by
      rw [hout1 _ (Or.inr (le_refl _))]; exact hvC
    have hkey : ∃ cur₂ : List Inst,
        List.foldl linkStep (cur₁, idx :: st) [idx + 1 + S₁.length] = (cur₂, st) ∧
        cur₂.map Inst.cmd = cur₁.map Inst.cmd ∧
        (∀ j, j ≠ idx → j ≠ idx + 1 + S₁.length → cur₂[j]? = cur₁[j]?) ∧
        cur₂[idx]? = (cur₁[idx]?).map
          (fun x => { x with arg := ((idx + 1 + S₁.length : Nat) : Int) }) ∧
        cur₂[idx + 1 + S₁.length]? = (cur₁[idx + 1 + S₁.length]?).map
          (fun x => { x with arg := ((idx : Nat) : Int) }) := by
      refine ⟨(cur₁.modify (fun x => { x with arg := ((idx + 1 + S₁.length : Nat) : Int) })
            idx).modify (fun x => { x with arg := ((idx : Nat) : Int) })
            (idx + 1 + S₁.length), ?_, ?_, ?_, ?_, ?_⟩
      · simp only [List.foldl_cons, List.foldl_nil]
        exact linkStep_closeEq cur₁ idx st (idx + 1 + S₁.length) vC hvC1 hvCcmd
      · rw [map_cmd_modifyArg _ (fun x => { x with arg := ((idx : Nat) : Int) })
              (fun x => rfl),
            map_cmd_modifyArg _ (fun x => { x with arg := ((idx + 1 + S₁.length : Nat) : Int) })
              (fun x => rfl)]
      · intro j hj1 hj2
        rw [getElem?_modify_ne _ _ _ _ (fun he => hj2 he.symm),
            getElem?_modify_ne _ _ _ _ (fun he => hj1 he.symm)]
      · rw [getElem?_modify_ne _ _ _ _ (by omega), getElem?_modify_self]
      · rw [getElem?_modify_self, getElem?_modify_ne _ _ _ _ (by omega)]
    obtain ⟨cur₂, hfold2, hcmd2q, hne2, hat2O, hat2C⟩ := hkey
    rw [hfold2]
    have hcur2idx : cur₂[idx]?
        = some { vO with arg := ((idx + 1 + S₁.length : Nat) : Int) } := by
      rw [hat2O, hout1 idx (Or.inl (by omega)), hvO]; rfl
    have hcur2c : cur₂[idx + 1 + S₁.length]?
        = some { vC with arg := ((idx : Nat) : Int) } := by
      rw [hat2C, hvC1]; rfl
    have hcmd2cur : cur₂.map Inst.cmd = cur.map Inst.cmd := hcmd2q.trans hcmd1
    have hseg2 : (cur₂.map Inst.cmd).drop (idx + 1 + S₁.length + 1) = S₂ ++ T := by
      rw [hcmd2cur]; exact hdropS2
    obtain ⟨hst3, hcmd3, hout3, hpair3⟩ := ih₂ cur₂ st (idx + 1 + S₁.length + 1) T hseg2
    refine ⟨hst3, hcmd3.trans hcmd2cur, ?_, ?_⟩
    · intro j hj
      rw [hout3 j (by omega), hne2 j (by omega) (by omega), hout1 j (by omega)]
    · have hRidx : (List.foldl linkStep (cur₂, st)
          (List.range' (idx + 1 + S₁.length + 1) S₂.length)).1[idx]?
          = some { vO with arg := ((idx + 1 + S₁.length : Nat) : Int) } := by
        rw [hout3 idx (by omega)]; exact hcur2idx
      have hRc : (List.foldl linkStep (cur₂, st)
          (List.range' (idx + 1 + S₁.length + 1) S₂.length)).1[idx + 1 + S₁.length]?
          = some { vC with arg := ((idx : Nat) : Int) } := by
        rw [hout3 _ (by omega)]; exact hcur2c
      intro i inst hlo hhi hget
      by_cases hi1 : i = idx
      · rw [hi1, hRidx] at hget
        obtain rfl : { vO with arg := ((idx + 1 + S₁.length : Nat) : Int) } = inst :=
          Option.some.inj hget
        refine ⟨fun hcmd => ?_, fun hcmd => ?_⟩
        · exact ⟨idx + 1 + S₁.length, { vC with arg := ((idx : Nat) : Int) },
            by omega, by omega, rfl, hRc, hvCcmd, by rw [hi1]⟩
        · have hx : vO.cmd = InstType.Close := hcmd
          rw [hvOcmd] at hx
          cases hx
      · by_cases hi2 : i = idx + 1 + S₁.length
        · rw [hi2, hRc] at hget
          obtain rfl : { vC with arg := ((idx : Nat) : Int) } = inst :=
            Option.some.inj hget
          refine ⟨fun hcmd => ?_, fun hcmd => ?_⟩
          · have hx : vC.cmd = InstType.Open := hcmd
            rw [hvCcmd] at hx
            cases hx
          · exact ⟨idx, { vO with arg := ((idx + 1 + S₁.length : Nat) : Int) },
              by omega, by omega, rfl, hRidx, hvOcmd, by rw [hi2]⟩
        · by_cases hi3 : i < idx + 1 + S₁.length
          · have htrans : ∀ j, (idx + 1) ≤ j → j < (idx + 1) + S₁.length →
                (List.foldl linkStep (cur₂, st)
                  (List.range' (idx + 1 + S₁.length + 1) S₂.length)).1[j]? = cur₁[j]? := by
              intro j ha hb
              rw [hout3 j (by omega), hne2 j (by omega) (by omega)]
            have hp := PairedIn_congr cur₁ _ (idx + 1) ((idx + 1) + S₁.length) htrans hpair1
            obtain ⟨hO, hC⟩ := hp i inst (by omega) (by omega) hget
            refine ⟨fun hcmd => ?_, fun hcmd => ?_⟩
            · obtain ⟨j, instJ, a1, a2, a3, a4, a5, a6⟩ := hO hcmd
              exact ⟨j, instJ, a1, by omega, a3, a4, a5, a6⟩
            · obtain ⟨j, instJ, a1, a2, a3, a4, a5, a6⟩ := hC hcmd
              exact ⟨j, instJ, by omega, a2, a3, a4, a5, a6⟩
          · obtain ⟨hO, hC⟩ := hpair3 i inst (by omega) (by omega) hget
            refine ⟨fun hcmd => ?_, fun hcmd => ?_⟩
            · obtain ⟨j, instJ, a1, a2, a3, a4, a5, a6⟩ := hO hcmd
              exact ⟨j, instJ, a1, by omega, a3, a4, a5, a6⟩
            · obtain ⟨j, instJ, a1, a2, a3, a4, a5, a6⟩ := hC hcmd
              exact ⟨j, instJ, by omega, a2, a3, a4, a5, a6⟩


/-- C9: after flatten, every Open in the linked flat program carries the
index of its matching Close and that Close carries the index of the Open,
with both partners inside the program. -/
theorem c9_flatten_jump_linking (p : List BaseInst) :
    (flatten p).length = (flattenBlock p).length ∧
    PairedIn (flatten p) 0 (flatten p).length := by
  obtain ⟨hst, hcmd, hout, hpair⟩ :=
    linkSeg (flattenBlock_dyck p) (flattenBlock p) [] 0 [] (by simp)
  rw [List.length_map] at hcmd hpair
  have hflat : flatten p = (List.foldl linkStep (flattenBlock p, [])
      (List.range' 0 (flattenBlock p).length)).1 := by
    simp only [flatten, List.range_eq_range']
  have hlen2 : (List.foldl linkStep (flattenBlock p, [])
      (List.range' 0 (flattenBlock p).length)).1.length
      = (flattenBlock p).length := by
    simpa using congrArg List.length hcmd
  refine ⟨by rw [hflat, hlen2], ?_⟩
  rw [hflat, hlen2]
  simpa using hpair

theorem c9_witness :
    ∃ j instJ, 0 < j ∧ j < (flatten [BaseInst.Block [] true]).length ∧
      (Inst.mk .Open 0 0 1).arg = (j : Int) ∧
      (flatten [BaseInst.Block [] true])[j]? = some instJ ∧
      instJ.cmd = .Close ∧ instJ.arg = ((0 : Nat) : Int) := by
  have hfb : flattenBlock [BaseInst.Block [] true]
      = [⟨.Open, 0, 0, 0⟩, ⟨.Close, 0, 0, 0⟩] := by
    simp [flattenBlock, pickInc, pickShift]
  have hflat : flatten [BaseInst.Block [] true]
      = [⟨.Open, 0, 0, 1⟩, ⟨.Close, 0, 0, 0⟩] := by
    rw [show flatten [BaseInst.Block [] true]
        = (List.foldl linkStep (flattenBlock [BaseInst.Block [] true], [])
            (List.range (flattenBlock [BaseInst.Block [] true]).length)).1 from rfl,
      hfb]
    decide
  have h := (c9_flatten_jump_linking [BaseInst.Block [] true]).2
  have h0 : (flatten [BaseInst.Block [] true])[0]? = some ⟨.Open, 0, 0, 1⟩ := by
    rw [hflat]; rfl
  exact (h 0 ⟨.Open, 0, 0, 1⟩ (Nat.le_refl 0) (by rw [hflat]; decide) h0).1 rfl


end Bropt
